import Mathlib

/-!
Verification of the Playwise media-library manager.

This file gives a shallow embedding, in Lean 4, of the core data structures
and algorithms of the Playwise repository (`structures.py`, `playlist.py`,
`playback.py`, `song.py`) and proves, or refutes, the properties claimed
about them in the specification.

Modelling conventions:
* Python lists are Lean `List`s; Python dicts are insertion-ordered
  association lists (`List (key × value)`), with Python's update-in-place /
  append-if-new assignment semantics.
* Python floats that carry ratings are modelled as `ℚ` (every rating
  appearing in the program is an exact decimal, and the only arithmetic
  performed on ratings is `(start + end) / 2`, exact on `ℚ`).
* Fallible code (code that can raise) returns `Except String α`, carrying
  the message of the exception raised by the source.
* Mutation is explicit state passing.  Where Python object identity is
  observable (the playlist's edit log stores a live reference to the
  playlist's sequence object; the rating tree's five leaves share the one
  dict object created as the leaf constructor's default argument), the
  embedding carries an explicit store of heap objects and the references
  into it, so aliasing behaves exactly as in CPython.
* `random.shuffle` is modelled by universally quantifying over the
  permutation it produces; `heapq` (a binary heap of distinct tuples) is
  modelled by its documented contract: pop removes the unique smallest
  element, push adds an element.
-/

namespace Playwise

/-- Decidable equality of results, so that concrete runs can be checked by
`decide`. -/
instance exceptDecidableEq {ε α : Type} [DecidableEq ε] [DecidableEq α] :
    DecidableEq (Except ε α) := fun a b =>
  match a, b with
  | .error e₁, .error e₂ =>
    if h : e₁ = e₂ then .isTrue (by rw [h])
    else .isFalse (by intro hc; injection hc; contradiction)
  | .ok v₁, .ok v₂ =>
    if h : v₁ = v₂ then .isTrue (by rw [h])
    else .isFalse (by intro hc; injection hc; contradiction)
  | .error _, .ok _ => .isFalse (by intro hc; injection hc)
  | .ok _, .error _ => .isFalse (by intro hc; injection hc)

/-- Catalog record, from `song.py` (`Song.__init__` and the getters). -/
structure Song where
  id : Nat
  name : String
  artists : List String
  duration : Nat
deriving Repr, DecidableEq, Inhabited

/-- The catalog, from `structures.py` (`SongMap`): a dict keyed by song id,
modelled as an insertion-ordered association list. -/
structure SongMap where
  song_map : List (Nat × Song)
deriving Repr, DecidableEq, Inhabited

/-- `SongMap.search_song`: `self.song_map.get(song_id)`. -/
def SongMap.search_song (m : SongMap) (song_id : Nat) : Option Song :=
  (m.song_map.find? (fun p => p.1 == song_id)).map Prod.snd

/-- Python's `search_song(id).get_name()` and friends dereference the found
song; on a missing id CPython raises `AttributeError`.  `song_at` is the
total counterpart used to phrase keys; every claim that uses it carries the
hypothesis that the id is present, under which the default is never used. -/
def SongMap.song_at (m : SongMap) (song_id : Nat) : Song :=
  (m.search_song song_id).getD default

/-- The LIFO stack of `structures.py` (`Stack`): `items` is the Python list,
its top is the last element. -/
structure Stack (α : Type) where
  items : List α
deriving Repr, DecidableEq

/-- `Stack.push`: `self.items.append(item)`. -/
def Stack.push (s : Stack α) (item : α) : Stack α :=
  ⟨s.items ++ [item]⟩

/-- `Stack.is_empty`: `len(self.items) == 0`. -/
def Stack.is_empty (s : Stack α) : Bool :=
  s.items.length == 0

/-- `Stack.pop`: raises `IndexError` on an empty stack, otherwise removes and
returns the last element. -/
def Stack.pop (s : Stack α) : Except String (α × Stack α) :=
  if s.is_empty then .error "Pop from empty stack"
  else
    match s.items.getLast? with
    | none => .error "Pop from empty stack"
    | some item => .ok (item, ⟨s.items.dropLast⟩)

/-- `Stack.get_size`: `len(self.items)`. -/
def Stack.get_size (s : Stack α) : Nat :=
  s.items.length

/-- The FIFO queue of `structures.py` (`Queue`): `items` is the Python list,
its front is the first element. -/
structure Queue (α : Type) where
  items : List α
deriving Repr, DecidableEq

/-- `Queue.enqueue`: `self.items.append(item)`. -/
def Queue.enqueue (q : Queue α) (item : α) : Queue α :=
  ⟨q.items ++ [item]⟩

/-- `Queue.is_empty`: `len(self.items) == 0`. -/
def Queue.is_empty (q : Queue α) : Bool :=
  q.items.length == 0

/-- `Queue.dequeue`: raises `IndexError` on an empty queue, otherwise removes
and returns the first element (`self.items.pop(0)`). -/
def Queue.dequeue (q : Queue α) : Except String (α × Queue α) :=
  if q.is_empty then .error "Dequeue from empty queue"
  else
    match q.items with
    | [] => .error "Dequeue from empty queue"
    | item :: rest => .ok (item, ⟨rest⟩)

/-- `Queue.get_size`: `len(self.items)`. -/
def Queue.get_size (q : Queue α) : Nat :=
  q.items.length

/-- Playback state, from `playback.py` (`Playback.__init__`): a play queue of
song ids and a history stack of played song ids. -/
structure Playback where
  play_queue : Queue Nat
  history : Stack Nat
deriving Repr, DecidableEq

/-- `Playback.play_next`: raises if the queue is empty or holds exactly one
song; otherwise dequeues the front song into the history. -/
def Playback.play_next (p : Playback) : Except String Playback :=
  if p.play_queue.is_empty then .error "No songs in the queue"
  else if p.play_queue.get_size == 1 then .error "No songs to play next"
  else
    match p.play_queue.dequeue with
    | .error e => .error e
    | .ok (song, q) => .ok { play_queue := q, history := p.history.push song }

/-- `Playback.undo_last_play`: raises if the history is empty; otherwise pops
the history's top song and enqueues it at the back of the play queue. -/
def Playback.undo_last_play (p : Playback) : Except String Playback :=
  if p.history.is_empty then .error "No history to undo"
  else
    match p.history.pop with
    | .error e => .error e
    | .ok (song, h) => .ok { play_queue := p.play_queue.enqueue song, history := h }

/-- A Python dict from song id to rating, as an insertion-ordered association
list (CPython dicts preserve insertion order; updating an existing key keeps
its position). -/
abbrev SongsDict := List (Nat × ℚ)

/-- Python dict assignment `d[k] = v`: update the existing entry in place, or
append a new one. -/
def dictInsert (d : SongsDict) (k : Nat) (v : ℚ) : SongsDict :=
  if d.any (fun p => p.1 == k) then d.map (fun p => if p.1 == k then (k, v) else p)
  else d ++ [(k, v)]

/-- Python dict lookup `d.get(k)`. -/
def dictLookup (d : SongsDict) (k : Nat) : Option ℚ :=
  (d.find? (fun p => p.1 == k)).map Prod.snd

/-- Python `del d[k]`: removes the entry for `k`, raising `KeyError` when `k`
is not a key. -/
def dictDel (d : SongsDict) (k : Nat) : Except String SongsDict :=
  if d.any (fun p => p.1 == k) then .ok (d.eraseP (fun p => p.1 == k))
  else .error "KeyError"

/-- Python dict merge `{**a, **b}`: entries of `b` are written over `a` in
order. -/
def dictMerge (a b : SongsDict) : SongsDict :=
  b.foldl (fun acc p => dictInsert acc p.1 p.2) a

/-- The heap of dict objects observable through the rating tree.  The leaf
constructor `BinarySearchTreeLeafNode.__init__` has the mutable default
argument `songs: dict = {}`; CPython evaluates it once, so every leaf built
without an explicit `songs` argument aliases that one dict object.  The store
holds the dict objects; reference `0` is the default-argument object. -/
abbrev DictStore := List SongsDict

/-- Read the dict object a reference points at. -/
def storeGet (store : DictStore) (r : Nat) : SongsDict :=
  (store.get? r).getD []

/-- Overwrite the dict object a reference points at (in-place mutation of the
shared dict). -/
def storeSet (store : DictStore) (r : Nat) (d : SongsDict) : DictStore :=
  store.set r d

/-- Node of `BinarySearchTree` in `structures.py`: an interior
`BinarySearchTreeBucketNode` with `start`/`end` and optional children, or a
`BinarySearchTreeLeafNode` whose `songs` dict is a reference into the store
(`stop` models the source's `end` attribute, which is not a legal Lean field
name). -/
inductive BSTNode where
  | bucket (start stop : ℚ) (left right : Option BSTNode)
  | leaf (start stop : ℚ) (songsRef : Nat)
deriving Repr

/-- Number of bucket nodes in a tree; recursion measure for the descents. -/
def BSTNode.size : BSTNode → Nat
  | .leaf _ _ _ => 0
  | .bucket _ _ none none => 1
  | .bucket _ _ none (some c) => 1 + c.size
  | .bucket _ _ (some c) none => 1 + c.size
  | .bucket _ _ (some c₁) (some c₂) => 1 + c₁.size + c₂.size

/-- The rating tree with its heap of dict objects. -/
structure BinarySearchTree where
  root : BSTNode
  store : DictStore
deriving Repr

/-- `BinarySearchTree.__init__`: the fixed bucket structure for ratings 0-5.
Every leaf is built without a `songs` argument, hence every `songsRef` is `0`,
the shared default dict, which starts empty. -/
def BinarySearchTree.init : BinarySearchTree where
  root :=
    .bucket 0 6
      (some (.bucket 0 3
        (some (.bucket 0 2 (some (.leaf 0 1 0)) (some (.leaf 1 2 0))))
        (some (.leaf 2 3 0))))
      (some (.bucket 3 6 (some (.leaf 3 4 0)) (some (.leaf 4 6 0))))
  store := [[]]

/-- `BinarySearchTree.__insert`: recursive midpoint descent.  At a leaf the
rating must lie in the leaf's `[start, end)` range or a `ValueError` is
raised; at a bucket the rating must lie in the bucket's range, and descends
left or right of the midpoint, creating a leaf lazily when the branch is
`None` (such a leaf is also built without a `songs` argument, so it aliases
dict `0`). -/
def BSTNode.insertRec (rating : ℚ) (song : Nat) :
    BSTNode → DictStore → Except String (BSTNode × DictStore)
  | .leaf s e ref, store =>
    if rating < s ∨ rating ≥ e then .error "Rating out of bounds for leaf node"
    else .ok (.leaf s e ref, storeSet store ref (dictInsert (storeGet store ref) song rating))
  | .bucket s e l r, store =>
    if rating < s ∨ rating ≥ e then .error "Rating out of bounds for bucket node"
    else if rating < (s + e) / 2 then
      match l with
      | some c =>
        match insertRec rating song c store with
        | .error msg => .error msg
        | .ok (child, store') => .ok (.bucket s e (some child) r, store')
      | none =>
        -- `node.left = BinarySearchTreeLeafNode(node.start, mid)` followed by the
        -- recursive insert into that fresh leaf, inlined to keep the recursion
        -- structural; the fresh leaf aliases dict 0 (the default argument).
        if rating < s ∨ rating ≥ (s + e) / 2 then .error "Rating out of bounds for leaf node"
        else .ok (.bucket s e (some (.leaf s ((s + e) / 2) 0)) r,
          storeSet store 0 (dictInsert (storeGet store 0) song rating))
    else
      match r with
      | some c =>
        match insertRec rating song c store with
        | .error msg => .error msg
        | .ok (child, store') => .ok (.bucket s e l (some child), store')
      | none =>
        if rating < (s + e) / 2 ∨ rating ≥ e then .error "Rating out of bounds for leaf node"
        else .ok (.bucket s e l (some (.leaf ((s + e) / 2) e 0)),
          storeSet store 0 (dictInsert (storeGet store 0) song rating))

/-- `BinarySearchTree.insert`: validates the rating is in `[0, 5]`, then
descends. -/
def BinarySearchTree.insert (t : BinarySearchTree) (rating : ℚ) (song : Nat) :
    Except String BinarySearchTree :=
  if rating < 0 ∨ rating > 5 then .error "Rating must be between 0 and 5"
  else
    match BSTNode.insertRec rating song t.root t.store with
    | .error msg => .error msg
    | .ok (root', store') => .ok ⟨root', store'⟩

/-- `BinarySearchTree.__search`: a missing node contributes `{}`; a leaf whose
range misses the query contributes `{}`, otherwise its dict filtered by the
query range; a bucket merges both children with `{**left, **right}`. -/
def BSTNode.searchRec (start stop : ℚ) (store : DictStore) : BSTNode → SongsDict
  | .leaf s e ref =>
    if s ≥ stop ∨ e ≤ start then []
    else (storeGet store ref).filter (fun p => decide (start ≤ p.2 ∧ p.2 < stop))
  | .bucket _ _ l r =>
    dictMerge
      (match l with | none => [] | some c => searchRec start stop store c)
      (match r with | none => [] | some c => searchRec start stop store c)

/-- `BinarySearchTree.search`: validates the half-open range, then searches. -/
def BinarySearchTree.search (t : BinarySearchTree) (start stop : ℚ) :
    Except String SongsDict :=
  if start < 0 ∨ stop > 6 ∨ start ≥ stop then .error "Invalid range for search"
  else .ok (BSTNode.searchRec start stop t.store t.root)

/-- `BinarySearchTree.__delete`: at a leaf the source tests
`song in node.songs.values()` — membership among the rating *values*, with
Python's numeric cross-type equality — and only then executes
`del node.songs[song]` (which raises `KeyError` if `song` is not a *key*);
at a bucket, `or` short-circuits: the right child is tried only when the left
returned `False`. -/
def BSTNode.deleteRec (song : Nat) : Option BSTNode → DictStore →
    Except String (Bool × DictStore)
  | none, store => .ok (false, store)
  | some (.leaf _ _ ref), store =>
    let d := storeGet store ref
    if (d.map Prod.snd).contains ((song : ℚ)) then
      match dictDel d song with
      | .error msg => .error msg
      | .ok d' => .ok (true, storeSet store ref d')
    else .ok (false, store)
  | some (.bucket _ _ l r), store =>
    match BSTNode.deleteRec song l store with
    | .error msg => .error msg
    | .ok (true, store') => .ok (true, store')
    | .ok (false, store') => BSTNode.deleteRec song r store'

/-- `BinarySearchTree.delete`: returns whether a deletion occurred, together
with the resulting state. -/
def BinarySearchTree.delete (t : BinarySearchTree) (song : Nat) :
    Except String (Bool × BinarySearchTree) :=
  match BSTNode.deleteRec song (some t.root) t.store with
  | .error msg => .error msg
  | .ok (b, store') => .ok (b, ⟨t.root, store'⟩)

/-- `BinarySearchTree.get_num_by_rating`: `len(self.search(start, end))` after
validating the range. -/
def BinarySearchTree.get_num_by_rating (t : BinarySearchTree) (start stop : ℚ) :
    Except String Nat :=
  if start < 0 ∨ stop > 6 ∨ start ≥ stop then .error "Invalid range for get_num_by_rating"
  else (t.search start stop).map List.length

/-- Keys of a dict are pairwise distinct (the invariant every Python dict
enjoys). -/
def dictKeysNodup (d : SongsDict) : Prop :=
  (d.map Prod.fst).Nodup

/-- The `songs` references of the leaves of a tree, in left-to-right order. -/
def BSTNode.leafRefs : BSTNode → List Nat
  | .leaf _ _ ref => [ref]
  | .bucket _ _ l r =>
    (match l with | none => [] | some c => c.leafRefs)
      ++ (match r with | none => [] | some c => c.leafRefs)

/-- Read `arr[i]` of a Python list; all uses are in bounds, so the default is
never reached. -/
def lget [Inhabited T] (arr : List T) (i : Nat) : T :=
  (arr.get? i).getD default

/-- Python's parallel assignment `arr[i], arr[j] = arr[j], arr[i]`; all uses
are in bounds. -/
def lswap (arr : List T) (i j : Nat) : List T :=
  match arr.get? i, arr.get? j with
  | some a, some b => (arr.set i b).set j a
  | _, _ => arr

/-- The `extreme_idx` computation inside `heapify` in `structures.py`: the
index among `root_idx` and its in-heap children holding the extreme key —
the largest for `reverse=False` (max-heap, ascending sort), the smallest for
`reverse=True` — found by the source's two sequential comparisons. -/
def extremeIdx [Inhabited T] [LinearOrder K] (key : T → K) (reverse : Bool)
    (arr : List T) (size root_idx : Nat) : Nat :=
  let left_child_idx := 2 * root_idx + 1
  let right_child_idx := 2 * root_idx + 2
  let e₁ :=
    if reverse = false then
      if left_child_idx < size ∧ key (lget arr left_child_idx) > key (lget arr root_idx)
      then left_child_idx else root_idx
    else
      if left_child_idx < size ∧ key (lget arr left_child_idx) < key (lget arr root_idx)
      then left_child_idx else root_idx
  if reverse = false then
    if right_child_idx < size ∧ key (lget arr right_child_idx) > key (lget arr e₁)
    then right_child_idx else e₁
  else
    if right_child_idx < size ∧ key (lget arr right_child_idx) < key (lget arr e₁)
    then right_child_idx else e₁

/-- The inner `heapify` of `heap_sort` in `structures.py`: sift the value at
`root_idx` down the binary heap laid out in `arr[0:size]`, swapping with the
extreme child and recursing while the extreme index moves.  The recursion
steps from `root_idx` to a strictly larger index below `size`, so its depth
is bounded by `size - root_idx`; `fuel` carries that bound to make the
recursion structural (the fuel-exhausted branch is unreachable and
`heapify` below supplies a sufficient amount). -/
def heapifyF [Inhabited T] [LinearOrder K] (key : T → K) (reverse : Bool) :
    Nat → List T → Nat → Nat → List T
  | 0, arr, _, _ => arr
  | fuel + 1, arr, size, root_idx =>
    if extremeIdx key reverse arr size root_idx ≠ root_idx then
      heapifyF key reverse fuel
        (lswap arr root_idx (extremeIdx key reverse arr size root_idx)) size
        (extremeIdx key reverse arr size root_idx)
    else arr

/-- `heapify(sub_arr, size, root_idx, key_func)` from `structures.py`. -/
def heapify [Inhabited T] [LinearOrder K] (key : T → K) (reverse : Bool)
    (arr : List T) (size root_idx : Nat) : List T :=
  heapifyF key reverse (size - root_idx) arr size root_idx

/-- `heap_sort` from `structures.py`: build a heap over the whole list
(`for i in range(n//2 - 1, -1, -1): heapify(arr, n, i)`), then repeatedly
swap the root with the last unsorted slot and re-heapify the shrunk prefix
(`for i in range(n-1, 0, -1)`). -/
def heap_sort [Inhabited T] [LinearOrder K] (arr : List T) (key : T → K)
    (reverse : Bool) : List T :=
  let n := arr.length
  let built := (List.range (n / 2)).reverse.foldl
    (fun a i => heapify key reverse a n i) arr
  (List.range' 1 (n - 1)).reverse.foldl
    (fun a i => heapify key reverse (lswap a i 0) i 0) built

/-- Heap-shape property of the prefix `arr[0:size]` at parent `j` for an
ascending (`reverse=False`, max-heap) run: each in-bounds child's key is at
most the parent's. -/
def ChildOK [Inhabited T] [LinearOrder K] (key : T → K) (arr : List T)
    (size j : Nat) : Prop :=
  (2 * j + 1 < size → key (lget arr (2 * j + 1)) ≤ key (lget arr j))
  ∧ (2 * j + 2 < size → key (lget arr (2 * j + 2)) ≤ key (lget arr j))

/-- `DoublyLinkedListNode`: a song id plus the `datetime.now()` insertion
timestamp (modelled as a natural number supplied by the caller, standing for
the current clock). -/
structure DoublyLinkedListNode where
  song : Nat
  add_time : Nat
deriving Repr, DecidableEq, Inhabited

/-- The three values of `sort_list`'s `Literal["add_time", "name", "duration"]`
argument. -/
inductive SortType where
  | add_time
  | name
  | duration
deriving Repr, DecidableEq

/-- The primary artist of a catalog song, from `DoublyLinkedList.shuffle`:
`search_song(node.song).get_artists()[0] if ... get_artists() else "Unknown"`. -/
def primary_artist (m : SongMap) (song_id : Nat) : String :=
  ((m.song_at song_id).artists).headD "Unknown"

/-- Lookup in the `songs_by_artist` dict (Python dicts are insertion-ordered
association maps; a missing key is never read by the source, `[]` is the
don't-care default). -/
def agGet (g : List (String × List α)) (a : String) : List α :=
  ((g.find? (fun p => p.1 == a)).map Prod.snd).getD []

/-- In-place overwrite of an existing key's list in `songs_by_artist`
(the source only ever mutates the list object of a key already present). -/
def agSet (g : List (String × List α)) (a : String) (v : List α) :
    List (String × List α) :=
  g.map (fun p => if p.1 == a then (a, v) else p)

/-- One iteration of the grouping loop in `DoublyLinkedList.shuffle`:
`if primary_artist not in songs_by_artist: songs_by_artist[primary_artist] = []`
then `songs_by_artist[primary_artist].append(node)`. -/
def addToGroup (g : List (String × List α)) (a : String) (x : α) :
    List (String × List α) :=
  if g.any (fun p => p.1 == a) then
    g.map (fun p => if p.1 == a then (a, p.2 ++ [x]) else p)
  else g ++ [(a, [x])]

/-- The `for node in nodes` grouping loop of `DoublyLinkedList.shuffle`,
generic in how an element's primary artist is read off. -/
def groupByArtist (artistOf : α → String) (xs : List α) :
    List (String × List α) :=
  xs.foldl (fun g x => addToGroup g (artistOf x) x) []

/-- `max_freq = 0; if songs_by_artist: max_freq = max(len(songs) for songs in
songs_by_artist.values())` — the fold's `0` base is exactly the empty-dict
case. -/
def maxFreq (g : List (String × List α)) : Nat :=
  (g.map (fun p => p.2.length)).foldr max 0

/-- Python's `<` on `(int, str)` tuples: lexicographic. -/
def tupLtb (x y : Int × String) : Bool :=
  x.1 < y.1 || (x.1 == y.1 && x.2 < y.2)

/-- Fold selecting the tuple-lexicographic minimum. -/
def findMin : List (Int × String) → (Int × String) → (Int × String)
  | [], m => m
  | y :: ys, m => findMin ys (if tupLtb y m then y else m)

/-- Remove the first occurrence of an entry. -/
def eraseFirst : List (Int × String) → (Int × String) → List (Int × String)
  | [], _ => []
  | x :: xs, m => if x = m then xs else x :: eraseFirst xs m

/-- `heapq.heappop`'s contract: returns the smallest entry of the heap (tuple
lexicographic order) and the remaining entries.  The model keeps the heap as
the plain multiset of its entries, which determines every subsequent pop: the
popped *value* is the multiset minimum whatever internal array order `heapq`
maintains, and `heappush` just adds an entry. -/
def popMin (h : List (Int × String)) :
    Option ((Int × String) × List (Int × String)) :=
  match h with
  | [] => none
  | x :: xs =>
    let m := findMin xs x
    some (m, eraseFirst (x :: xs) m)

/-- The `while max_heap` interleaving loop of `DoublyLinkedList.shuffle`,
generic in the element type (used with chain nodes here and with node ids in
the pointer model).  Each iteration pops the most-negative-count artist, pops
the *last* element of that artist's group (`list.pop()`), appends it to
`shuffled_nodes`, re-pushes the previously used artist group if any, and
records the popped artist as previous if its group is still non-empty
(`prev_artist_group` is a tuple, truthy exactly when not `None`).  The loop
terminates because each iteration removes one element from the groups; `fuel`
is an upper bound on that count (the "out of fuel" branch requires a
non-empty heap over empty groups, which the source's grouping never builds). -/
def interleave (artistOf : α → String) : Nat → List (Int × String) →
    List (String × List α) → Option (Int × String) → List α →
    Except String (List α)
  | 0, heap, _, _, acc =>
    if heap.isEmpty then .ok acc else .error "shuffle interleaving out of fuel"
  | fuel + 1, heap, sba, prev, acc =>
    match popMin heap with
    | none => .ok acc
    | some ((count, artist), rest) =>
      match (agGet sba artist).getLast? with
      | none => .error "IndexError: pop from empty list"
      | some node =>
        let sba' := agSet sba artist (agGet sba artist).dropLast
        let heap' := match prev with | some pr => pr :: rest | none => rest
        let prev' := if (agGet sba' artist).isEmpty then none
                     else some (count + 1, artist)
        interleave artistOf fuel heap' sba' prev' (acc ++ [node])

/-- Total number of grouped elements (`sum(len(songs) for songs in
songs_by_artist.values())`), the quantity each interleaving iteration
decreases by one. -/
def agTotal (g : List (String × List α)) : Nat :=
  (g.map (fun p => p.2.length)).sum

/-- A heap entry is well-formed for the current groups: its count is minus
the current length of its artist's group, and that group is non-empty. -/
def HeapEntryOK (g : List (String × List α)) (e : Int × String) : Prop :=
  e.1 = -((agGet g e.2).length : Int) ∧ agGet g e.2 ≠ []

/-- The invariant of the `while max_heap` loop of `DoublyLinkedList.shuffle`:
group keys and heap artists are without repetition; every heap entry and the
held-back previous entry are well-formed; the previous artist is not on the
heap; artists on neither are exhausted; grouped elements carry their group's
artist; every heap artist's group fits in the remaining slots
(`2*len <= total+1`), and the previous artist's strictly so (`2*len <=
total`); no heap artist equals the last emitted artist; and the emitted
prefix has no adjacent repeats. -/
def InterleaveInv (artistOf : α → String) (heap : List (Int × String))
    (g : List (String × List α)) (prev : Option (Int × String))
    (acc : List α) : Prop :=
  ((g.map Prod.fst).Nodup)
  ∧ (heap.map Prod.snd).Nodup
  ∧ (∀ e ∈ heap, HeapEntryOK g e)
  ∧ (∀ e ∈ heap, ∀ pr ∈ prev, pr.2 ≠ e.2)
  ∧ (∀ pr ∈ prev, HeapEntryOK g pr)
  ∧ (∀ a, (∀ e ∈ heap, e.2 ≠ a) → (∀ pr ∈ prev, pr.2 ≠ a) → agGet g a = [])
  ∧ (∀ p ∈ g, ∀ x ∈ p.2, artistOf x = p.1)
  ∧ (∀ e ∈ heap, 2 * (agGet g e.2).length ≤ agTotal g + 1)
  ∧ (∀ pr ∈ prev, 2 * (agGet g pr.2).length ≤ agTotal g)
  ∧ (∀ e ∈ heap, ∀ x ∈ acc.getLast?, artistOf x ≠ e.2)
  ∧ List.Chain' (fun x y => artistOf x ≠ artistOf y) acc

/-
Sequence-level view of the `DoublyLinkedList` methods: the list of nodes
from head to tail.  (`PointerDLL` below embeds the same methods at the level
of prev/next pointers for the chain-invariant claim.)
-/
namespace DLL

/-- `DoublyLinkedList.append`: creates a node stamped `now` and links it at
the tail. -/
def append (l : List DoublyLinkedListNode) (song : Nat) (now : Nat) :
    List DoublyLinkedListNode :=
  l ++ [⟨song, now⟩]

/-- `DoublyLinkedList.insert`: raises `IndexError` outside `[0, size]`;
`index == size` delegates to `append`; otherwise creates a node stamped `now`
and links it before the node at `index`. -/
def insert (l : List DoublyLinkedListNode) (index : Int) (song : Nat)
    (now : Nat) : Except String (List DoublyLinkedListNode) :=
  if index < 0 ∨ index > (l.length : Int) then .error "Index out of bounds"
  else .ok (l.insertIdx index.toNat ⟨song, now⟩)

/-- `DoublyLinkedList.remove`: raises `IndexError` outside `[0, size)`;
otherwise unlinks the node at `index` (walking `next` from the head) and
returns its song id. -/
def remove (l : List DoublyLinkedListNode) (index : Int) :
    Except String (Nat × List DoublyLinkedListNode) :=
  if ¬(0 ≤ index ∧ index < (l.length : Int)) then .error "Index out of bounds for remove"
  else .ok ((lget (l.map (fun n => n.song)) index.toNat), l.eraseIdx index.toNat)

/-- `DoublyLinkedList.move`: silently returns on an out-of-range index
(both indices are pre-checked against the *original* size); otherwise
`remove(old_index)` followed by `insert(new_index, song)` — the walk the
source performs before calling `remove` has no effect and the re-`insert`
creates a fresh node stamped `now`.  Neither inner call can raise: `remove`'s
index was checked, and `new_index ≤ size - 1` is within `insert`'s `[0, size]`
bound on the shrunk list. -/
def move (l : List DoublyLinkedListNode) (old_index new_index : Int)
    (now : Nat) : List DoublyLinkedListNode :=
  if old_index < 0 ∨ new_index < 0 then l
  else if old_index ≥ (l.length : Int) ∨ new_index ≥ (l.length : Int) then l
  else
    match remove l old_index with
    | .error _ => l
    | .ok (song, l') =>
      match insert l' new_index song now with
      | .error _ => l'
      | .ok l'' => l''

/-- `DoublyLinkedList.reverse`: reverses the chain in place. -/
def reverse (l : List DoublyLinkedListNode) : List DoublyLinkedListNode :=
  l.reverse

/-- `DoublyLinkedList.__sort`: returns unchanged when `size <= 1`, otherwise
collects the nodes head-to-tail, `heap_sort`s them by `key`, and relinks the
chain in the sorted order. -/
def sortPriv [LinearOrder K] (l : List DoublyLinkedListNode)
    (key : DoublyLinkedListNode → K) (reverse : Bool) :
    List DoublyLinkedListNode :=
  if l.length ≤ 1 then l else heap_sort l key reverse

/-- `DoublyLinkedList.sort_list`: dispatches the sort key — the node's
insertion timestamp, or the catalog song's name or duration (the source
dereferences `self.__songMap.search_song(node.song)`, which is total on the
ids present in the map; `song_at` is that dereference). -/
def sort_list (m : SongMap) (l : List DoublyLinkedListNode) :
    SortType → Bool → List DoublyLinkedListNode
  | .add_time, reverse => sortPriv l (fun node => node.add_time) reverse
  | .name, reverse => sortPriv l (fun node => (m.song_at node.song).name) reverse
  | .duration, reverse => sortPriv l (fun node => (m.song_at node.song).duration) reverse

/-- `DoublyLinkedList.shuffle`: returns unchanged when `size <= 1`; collects
the nodes head-to-tail and lets `random.shuffle` permute them — `nodes` here
is that already-permuted list, so theorems quantify over every outcome of the
randomness; groups by primary artist; raises `ValueError` on the closed-form
feasibility check `max_freq > (self.size - max_freq) + 1` *before* any
rewiring; otherwise interleaves off the max-heap
`[(-len(songs), artist) for artist, songs in songs_by_artist.items()]` and
relinks the chain in the produced order. -/
def shuffle (m : SongMap) (nodes : List DoublyLinkedListNode) :
    Except String (List DoublyLinkedListNode) :=
  if nodes.length ≤ 1 then .ok nodes
  else
    let sba := groupByArtist (fun node => primary_artist m node.song) nodes
    if maxFreq sba > (nodes.length - maxFreq sba) + 1 then
      .error "Cannot shuffle playlist: too many songs by a single artist to avoid consecutive playback."
    else
      interleave (fun node => primary_artist m node.song) nodes.length
        (sba.map (fun p => (-(p.2.length : Int), p.1))) sba none []

end DLL

/-- The tagged union of `Change` in `playlist.py`: one variant per
`change_type`, carrying the `change` payload.  For `sort` and `shuffle` the
source pushes `[{...}, self.__songs]` — the second entry is the live
*reference* to the playlist's one `DoublyLinkedList` object (no copy is
made), modelled as the index of that object in the playlist's object store. -/
inductive ChangeData where
  | rename (initial_name new_name : String)
  | add (song_added : Nat)
  | remove (song_removed : Nat) (index : Int)
  | move (from_index to_index : Int)
  | reverse
  | sortChange (seq_ref : Nat)
  | shuffleChange (seq_ref : Nat)
deriving Repr, DecidableEq

/-- Playlist state, from `playlist.py`.  `objects` is the heap of
`DoublyLinkedList` objects (exactly one is ever allocated, in `__init__`);
`songsRef` is the reference `self.__songs` holds into it; `edits` is
`self.__edits.items`, most recent change last. -/
structure Playlist where
  name : String
  objects : List (List DoublyLinkedListNode)
  songsRef : Nat
  edits : List ChangeData
deriving Repr, DecidableEq

/-- `Playlist.__init__`: a fresh empty sequence (object `0`) and an empty
edit stack. -/
def Playlist.init (name : String) : Playlist :=
  ⟨name, [[]], 0, []⟩

/-- The sequence `self.__songs` currently refers to. -/
def Playlist.songs (p : Playlist) : List DoublyLinkedListNode :=
  (p.objects.get? p.songsRef).getD []

/-- In-place mutation of the sequence object `self.__songs` refers to. -/
def Playlist.setSongs (p : Playlist) (l : List DoublyLinkedListNode) : Playlist :=
  { p with objects := p.objects.set p.songsRef l }

/-- `Playlist.get_size`: `self.__songs.size`. -/
def Playlist.get_size (p : Playlist) : Nat :=
  p.songs.length

/-- `Playlist.set_name`: pushes a `rename` record, then renames. -/
def Playlist.set_name (p : Playlist) (name : String) : Playlist :=
  { p with edits := p.edits ++ [ChangeData.rename p.name name], name := name }

/-- `Playlist.add_song`: pushes an `add` record, then appends (the node is
stamped with the current clock `now`). -/
def Playlist.add_song (p : Playlist) (song : Nat) (now : Nat) : Playlist :=
  { p with edits := p.edits ++ [ChangeData.add song] }.setSongs (DLL.append p.songs song now)

/-- `Playlist.remove_song`: raises `IndexError` outside `[0, size)`; otherwise
removes and pushes a `remove` record carrying the removed song id and index. -/
def Playlist.remove_song (p : Playlist) (index : Int) : Except String Playlist :=
  if index < 0 ∨ index ≥ (p.get_size : Int) then .error "Index out of bounds"
  else
    match DLL.remove p.songs index with
    | .error msg => .error msg
    | .ok (song, l') =>
      .ok ({ p with edits := p.edits ++ [ChangeData.remove song index] }.setSongs l')

/-- `Playlist.move_song`: raises `IndexError` when either index is outside
`[0, size)`; otherwise moves and pushes a `move` record. -/
def Playlist.move_song (p : Playlist) (from_index to_index : Int) (now : Nat) :
    Except String Playlist :=
  if from_index < 0 ∨ from_index ≥ (p.get_size : Int)
      ∨ to_index < 0 ∨ to_index ≥ (p.get_size : Int) then
    .error "Index out of bounds"
  else
    .ok ({ p with edits := p.edits ++ [ChangeData.move from_index to_index] }.setSongs
      (DLL.move p.songs from_index to_index now))

/-- `Playlist.reverse_playlist`: reverses, then pushes a `reverse` record. -/
def Playlist.reverse_playlist (p : Playlist) : Playlist :=
  { p with edits := p.edits ++ [ChangeData.reverse] }.setSongs (DLL.reverse p.songs)

/-- `Playlist.sort_playlist`: pushes
`Change("sort", [{...}, self.__songs])` — the live reference to the sequence
object, not a snapshot — and then sorts that same object in place. -/
def Playlist.sort_playlist (m : SongMap) (p : Playlist) (sort_type : SortType)
    (reverse : Bool) : Playlist :=
  { p with edits := p.edits ++ [ChangeData.sortChange p.songsRef] }.setSongs
    (DLL.sort_list m p.songs sort_type reverse)

/-- One reversal step of `Playlist.undo_changes` (the body of the `for` loop
after a record has been popped).  `undo` of `sort`/`shuffle` executes
`self.__songs = change.change[1]`: it rebinds the attribute to the stored
object reference — the very object that was sorted in place, so no order is
restored.  `undo` of `add` removes the current last element; `undo` of
`remove` re-appends at the tail; `undo` of `move` moves `to → from`. -/
def Playlist.undoStep (p : Playlist) (c : ChangeData) (now : Nat) :
    Except String Playlist :=
  match c with
  | .rename initial_name _ => .ok { p with name := initial_name }
  | .add _ =>
    match DLL.remove p.songs ((p.songs.length : Int) - 1) with
    | .error msg => .error msg
    | .ok (_, l') => .ok (p.setSongs l')
  | .remove song _ => .ok (p.setSongs (DLL.append p.songs song now))
  | .move from_index to_index =>
    .ok (p.setSongs (DLL.move p.songs to_index from_index now))
  | .reverse => .ok (p.setSongs (DLL.reverse p.songs))
  | .sortChange seq_ref => .ok { p with songsRef := seq_ref }
  | .shuffleChange seq_ref => .ok { p with songsRef := seq_ref }

/-- The `for _ in range(num)` loop of `Playlist.undo_changes`: each iteration
pops the most recent record (guarded by `if not self.__edits.is_empty()`,
which silently skips when the stack is exhausted) and reverses it. -/
def Playlist.undoLoop (now : Nat) : Playlist → Nat → Except String Playlist
  | p, 0 => .ok p
  | p, n + 1 =>
    match p.edits.getLast? with
    | none => Playlist.undoLoop now p n
    | some c =>
      match Playlist.undoStep { p with edits := p.edits.dropLast } c now with
      | .error msg => .error msg
      | .ok p' => Playlist.undoLoop now p' n

/-- `Playlist.undo_changes`: `ValueError` when `num < 1` or when `num`
exceeds the number of recorded edits; otherwise runs the undo loop. -/
def Playlist.undo_changes (p : Playlist) (num : Int) (now : Nat) :
    Except String Playlist :=
  if num < 1 then .error "Number of undos must be at least 1"
  else if num > (p.edits.length : Int) then .error "Not enough edits to undo"
  else Playlist.undoLoop now p num.toNat

/-- The specification's reading of `undo(n)` (section 4.3 of the spec): pop
the `n` most recent change records and reverse them in LIFO order, most
recent first.  `cs` is that most-recent-first list; the edit stack itself is
assumed already shortened (records "popped"), and each record is reversed in
turn.  Stated from the spec's words, for comparison with the code's loop. -/
def Playlist.undoSpecLIFO (now : Nat) : Playlist → List ChangeData →
    Except String Playlist
  | p, [] => .ok p
  | p, c :: cs =>
    match Playlist.undoStep p c now with
    | .error msg => .error msg
    | .ok p' => Playlist.undoSpecLIFO now p' cs

/-
Pointer-level embedding of `DoublyLinkedList` (`PointerDLL`), for the chain
invariant: every `DoublyLinkedListNode` object lives in a `store` (a heap of
allocated nodes); a node's identity is its index into the store; `prev` and
`next` hold node ids or `None`.  Each method below mirrors the source's
pointer writes one by one, in order.  A path Python only reaches from a
corrupted chain (e.g. `self.tail.next` with `tail is None`, giving an
`AttributeError`) is an `Except.error`.
-/

/-- One `DoublyLinkedListNode`: song id, `prev`/`next` pointers and the
`datetime.now()` insertion stamp. -/
structure NodeData where
  song : Nat
  prev : Option Nat
  next : Option Nat
  add_time : Nat
deriving Repr, DecidableEq, Inhabited

/-- The `DoublyLinkedList` object at pointer level: node heap plus the
`head`/`tail`/`size` attributes. -/
structure PointerDLL where
  store : List NodeData
  head : Option Nat
  tail : Option Nat
  size : Nat
deriving Repr, DecidableEq, Inhabited

/-- Reading a node object through its id (total, with a default never used
from a valid id). -/
def getNode (s : List NodeData) (i : Nat) : NodeData :=
  (s.get? i).getD default

/-- In-place update of a node object. -/
def setNode (s : List NodeData) (i : Nat) (v : NodeData) : List NodeData :=
  s.set i v

/-- `node.next = v`. -/
def setNext (s : List NodeData) (i : Nat) (v : Option Nat) : List NodeData :=
  setNode s i { getNode s i with next := v }

/-- `node.prev = v`. -/
def setPrev (s : List NodeData) (i : Nat) (v : Option Nat) : List NodeData :=
  setNode s i { getNode s i with prev := v }

/-- `DoublyLinkedList.__init__`: an empty chain. -/
def PointerDLL.init : PointerDLL := ⟨[], none, none, 0⟩

/-- The unchecked walk of `get_node`
(`for _ in range(index): current = current.next`): dereferencing `next` on
`None` raises `AttributeError`. -/
def walk (s : List NodeData) : Option Nat → Nat → Except String (Option Nat)
  | cur, 0 => .ok cur
  | none, _ + 1 => .error "AttributeError"
  | some i, k + 1 => walk s (getNode s i).next k

/-- The guarded walk of `remove` and `move`
(`for _ in range(index): if current is None: return; current = current.next`
followed by `if current is None: return`): `none` signals the silent early
return. -/
def walkOpt (s : List NodeData) : Option Nat → Nat → Option Nat
  | cur, 0 => cur
  | none, _ + 1 => none
  | some i, k + 1 => walkOpt s (getNode s i).next k

/-- The node-collecting loop of `__sort` and `shuffle`
(`current = self.head; while current: nodes.append(current); current =
current.next`), with fuel bounding the loop (the chain's length; Python
would not terminate on a cyclic chain). -/
def collect (s : List NodeData) : Option Nat → Nat → Except String (List Nat)
  | none, _ => .ok []
  | some _, 0 => .error "collect out of fuel"
  | some i, fuel + 1 =>
    match collect s (getNode s i).next fuel with
    | .error e => .error e
    | .ok rest => .ok (i :: rest)

/-- The relinking loop of `__sort` and `shuffle`
(`for i in range(len(nodes)-1): nodes[i].next = nodes[i+1];
nodes[i+1].prev = nodes[i]`). -/
def relinkLoop : List NodeData → List Nat → List NodeData
  | s, [] => s
  | s, [_] => s
  | s, a :: b :: rest => relinkLoop (setPrev (setNext s a (some b)) b (some a)) (b :: rest)

/-- The full rewiring of `__sort`/`shuffle` after the new order is known:
`head.prev = None`, `tail.next = None`, then the relinking loop (callers
guarantee the list is non-empty, so the `getD` defaults are never used). -/
def rewire (s : List NodeData) (ids : List Nat) : List NodeData :=
  relinkLoop (setNext (setPrev s (ids.head?.getD 0) none) ((ids.getLast?).getD 0) none) ids

/-- `DoublyLinkedList.append` at pointer level: allocate, then either become
the singleton chain or link after the old tail (`self.tail.next` raises on a
corrupt `tail is None`). -/
def PointerDLL.append (d : PointerDLL) (song now : Nat) :
    Except String PointerDLL :=
  let newId := d.store.length
  let store0 := d.store ++ [⟨song, none, none, now⟩]
  match d.head with
  | none => .ok ⟨store0, some newId, some newId, d.size + 1⟩
  | some _ =>
    match d.tail with
    | none => .error "AttributeError"
    | some t =>
      .ok ⟨setNext (setPrev store0 newId (some t)) t (some newId),
        d.head, some newId, d.size + 1⟩

/-- `DoublyLinkedList.get_node` at pointer level. -/
def PointerDLL.get_node (d : PointerDLL) (index : Int) :
    Except String (Option Nat) :=
  if index < 0 ∨ index ≥ (d.size : Int) then .error "Index out of bounds"
  else walk d.store d.head index.toNat

/-- `DoublyLinkedList.insert` at pointer level: bounds check, `index == size`
delegates to `append`, `index == 0` pushes a new head, otherwise splices
before `get_node(index)`. -/
def PointerDLL.insert (d : PointerDLL) (index : Int) (song now : Nat) :
    Except String PointerDLL :=
  if index < 0 ∨ index > (d.size : Int) then .error "Index out of bounds"
  else if index = (d.size : Int) then d.append song now
  else
    let newId := d.store.length
    let store0 := d.store ++ [⟨song, none, none, now⟩]
    if index = 0 then
      let s1 := setNext store0 newId d.head
      let s2 := match d.head with
        | some h => setPrev s1 h (some newId)
        | none => s1
      let tail' := match d.tail with
        | none => some newId
        | some t => some t
      .ok ⟨s2, some newId, tail', d.size + 1⟩
    else
      match walk store0 d.head index.toNat with
      | .error e => .error e
      | .ok none => .error "AttributeError"
      | .ok (some c) =>
        let s1 := setPrev store0 newId (getNode store0 c).prev
        let s2 := setNext s1 newId (some c)
        let s3 := match (getNode s2 c).prev with
          | some p => setNext s2 p (some newId)
          | none => s2
        let s4 := setPrev s3 c (some newId)
        .ok ⟨s4, d.head, d.tail, d.size + 1⟩

/-- `DoublyLinkedList.remove` at pointer level: bounds check, the guarded
walk (whose silent `return` yields `(none, d)` — Python returns `None`
without mutating), then the four conditional unlink writes, reading each
attribute at the moment the source reads it. -/
def PointerDLL.remove (d : PointerDLL) (index : Int) :
    Except String (Option Nat × PointerDLL) :=
  if ¬(0 ≤ index ∧ index < (d.size : Int)) then
    .error "Index out of bounds for remove"
  else
    match walkOpt d.store d.head index.toNat with
    | none => .ok (none, d)
    | some c =>
      let s1 := match (getNode d.store c).prev with
        | some p => setNext d.store p (getNode d.store c).next
        | none => d.store
      let s2 := match (getNode s1 c).next with
        | some n => setPrev s1 n (getNode s1 c).prev
        | none => s1
      let head' := if d.head = some c then (getNode s2 c).next else d.head
      let tail' := if d.tail = some c then (getNode s2 c).prev else d.tail
      .ok (some (getNode s2 c).song, ⟨s2, head', tail', d.size - 1⟩)

/-- `DoublyLinkedList.move` at pointer level: the two silent range checks,
the (re-)walk to `old_index` with its silent return, then
`remove(old_index)` and `insert(new_index, song)`.  The node `insert`
creates is stamped `now`; if `remove` silently returned `None` the source
would insert a `None` song — that path is unreachable from a well-formed
chain, and the model inserts song id `0` there. -/
def PointerDLL.move (d : PointerDLL) (old_index new_index : Int) (now : Nat) :
    Except String PointerDLL :=
  if old_index < 0 ∨ new_index < 0 then .ok d
  else if old_index ≥ (d.size : Int) ∨ new_index ≥ (d.size : Int) then .ok d
  else
    match walkOpt d.store d.head old_index.toNat with
    | none => .ok d
    | some _ =>
      match d.remove old_index with
      | .error e => .error e
      | .ok (song, d') => d'.insert new_index (song.getD 0) now

/-- The in-place reversal loop of `DoublyLinkedList.reverse`
(`while current: next_node = current.next; current.next = prev;
current.prev = next_node; prev = current; current = next_node`), with fuel
bounding the loop like `collect`. -/
def revLoop (s : List NodeData) :
    Option Nat → Option Nat → Nat → Except String (List NodeData × Option Nat)
  | none, prev, _ => .ok (s, prev)
  | some _, _, 0 => .error "reverse out of fuel"
  | some i, prev, fuel + 1 =>
    revLoop (setPrev (setNext s i prev) i (getNode s i).next)
      (getNode s i).next (some i) fuel

/-- `DoublyLinkedList.reverse` at pointer level: `self.tail = current` (the
old head) before the loop, then `self.head = prev` after it. -/
def PointerDLL.reverse (d : PointerDLL) : Except String PointerDLL :=
  match revLoop d.store d.head none d.size with
  | .error e => .error e
  | .ok (s', prev) => .ok ⟨s', prev, d.head, d.size⟩

/-- `DoublyLinkedList.__sort` at pointer level: early return on `size <= 1`,
collect the chain, `heap_sort` the node list, the `if not nodes` guard
(head and tail cleared), and the rewiring. -/
def PointerDLL.sortPriv [LinearOrder K] (d : PointerDLL) (key : Nat → K)
    (reverse : Bool) : Except String PointerDLL :=
  if d.size ≤ 1 then .ok d
  else
    match collect d.store d.head d.size with
    | .error e => .error e
    | .ok nodes =>
      match heap_sort nodes key reverse with
      | [] => .ok ⟨d.store, none, none, d.size⟩
      | a :: rest =>
        .ok ⟨rewire d.store (a :: rest), some a,
          ((a :: rest).getLast?), d.size⟩

/-- `DoublyLinkedList.sort_list` at pointer level: dispatch the key over the
node's insertion stamp or the catalog song's name or duration. -/
def PointerDLL.sort_list (m : SongMap) (d : PointerDLL) :
    SortType → Bool → Except String PointerDLL
  | .add_time, reverse => d.sortPriv (fun i => (getNode d.store i).add_time) reverse
  | .name, reverse =>
    d.sortPriv (fun i => (m.song_at (getNode d.store i).song).name) reverse
  | .duration, reverse =>
    d.sortPriv (fun i => (m.song_at (getNode d.store i).song).duration) reverse

/-- `DoublyLinkedList.shuffle` at pointer level: early return on
`size <= 1`, collect, let `random.shuffle` permute the node list (`rand`
stands for that permutation; theorems quantify over every permutation it
may return), group by primary artist, the feasibility check against
`self.size`, the interleaving loop, then (`shuffled_nodes[0]` raising
`IndexError` on an empty result) the rewiring. -/
def PointerDLL.shuffle (m : SongMap) (rand : List Nat → List Nat)
    (d : PointerDLL) : Except String PointerDLL :=
  if d.size ≤ 1 then .ok d
  else
    match collect d.store d.head d.size with
    | .error e => .error e
    | .ok nodes =>
      let nodes2 := rand nodes
      let sba := groupByArtist
        (fun i => primary_artist m (getNode d.store i).song) nodes2
      if maxFreq sba > (d.size - maxFreq sba) + 1 then
        .error "Cannot shuffle playlist: too many songs by a single artist to avoid consecutive playback."
      else
        match interleave
            (fun i => primary_artist m (getNode d.store i).song)
            nodes2.length (sba.map (fun p => (-(p.2.length : Int), p.1)))
            sba none [] with
        | .error e => .error e
        | .ok [] => .error "IndexError: list index out of range"
        | .ok (a :: rest) =>
          .ok ⟨rewire d.store (a :: rest), some a,
            ((a :: rest).getLast?), d.size⟩

/-- The chain condition along a segment of node ids: the first node's `prev`
is `pv`, consecutive nodes point at each other both ways, and the last
node's `next` is `nx`. -/
def linkedSegB (s : List NodeData) : Option Nat → List Nat → Option Nat → Bool
  | pv, [], _ => true
  | pv, [a], nx =>
    ((getNode s a).prev == pv) && ((getNode s a).next == nx)
  | pv, a :: b :: rest, nx =>
    ((getNode s a).prev == pv) && ((getNode s a).next == some b)
      && linkedSegB s (some a) (b :: rest) nx

/-- Claim C7: `play_next()` fails with an empty-collection error when the play
queue is empty or holds exactly one item, and otherwise moves the queue's
front item onto the history stack; `undo_last_play()` fails when the history
is empty, and otherwise moves the history's top item to the back of the
queue; in particular, starting from queue `[A,B]` and empty history,
`play_next()` yields queue `[B]`, history `[A]`, and a following
`undo_last_play()` yields queue `[B,A]`, history `[]`. -/
theorem claim_C7 (p : Playback) :
    (p.play_queue.items = [] → p.play_next = .error "No songs in the queue")
    ∧ (∀ a, p.play_queue.items = [a] → p.play_next = .error "No songs to play next")
    ∧ (∀ a b rest, p.play_queue.items = a :: b :: rest →
        p.play_next = .ok ⟨⟨b :: rest⟩, ⟨p.history.items ++ [a]⟩⟩)
    ∧ (p.history.items = [] → p.undo_last_play = .error "No history to undo")
    ∧ (∀ h last, p.history.items = h ++ [last] →
        p.undo_last_play = .ok ⟨⟨p.play_queue.items ++ [last]⟩, ⟨h⟩⟩)
    ∧ (Playback.play_next ⟨⟨[1, 2]⟩, ⟨[]⟩⟩ = .ok ⟨⟨[2]⟩, ⟨[1]⟩⟩
        ∧ Playback.undo_last_play ⟨⟨[2]⟩, ⟨[1]⟩⟩ = .ok ⟨⟨[2, 1]⟩, ⟨[]⟩⟩) := by
  obtain ⟨⟨q⟩, ⟨h⟩⟩ := p
  refine ⟨?_, ?_, ?_, ?_, ?_, rfl, rfl⟩
  · rintro rfl; rfl
  · rintro a rfl; rfl
  · rintro a b rest rfl
    simp [Playback.play_next, Queue.is_empty, Queue.get_size, Queue.dequeue, Stack.push]
  · rintro rfl; rfl
  · rintro h' last rfl
    simp [Playback.undo_last_play, Stack.is_empty, Stack.pop, Queue.enqueue]

/-- Witness for C7: the concrete two-song scenario, obtained by applying
`claim_C7` at explicit states and discharging each hypothesis. -/
theorem claim_C7_witness :
    Playback.play_next ⟨⟨[1, 2]⟩, ⟨[]⟩⟩ = .ok ⟨⟨[2]⟩, ⟨[1]⟩⟩
    ∧ Playback.undo_last_play ⟨⟨[2]⟩, ⟨[1]⟩⟩ = .ok ⟨⟨[2, 1]⟩, ⟨[]⟩⟩
    ∧ Playback.play_next ⟨⟨[]⟩, ⟨[]⟩⟩ = .error "No songs in the queue"
    ∧ Playback.play_next ⟨⟨[7]⟩, ⟨[]⟩⟩ = .error "No songs to play next"
    ∧ Playback.undo_last_play ⟨⟨[]⟩, ⟨[]⟩⟩ = .error "No history to undo" := by
  refine ⟨?_, ?_, ?_, ?_, ?_⟩
  · exact (claim_C7 ⟨⟨[1, 2]⟩, ⟨[]⟩⟩).2.2.1 1 2 [] rfl
  · exact (claim_C7 ⟨⟨[2]⟩, ⟨[1]⟩⟩).2.2.2.2.1 [] 1 rfl
  · exact (claim_C7 ⟨⟨[]⟩, ⟨[]⟩⟩).1 rfl
  · exact (claim_C7 ⟨⟨[7]⟩, ⟨[]⟩⟩).2.1 7 rfl
  · exact (claim_C7 ⟨⟨[]⟩, ⟨[]⟩⟩).2.2.2.1 rfl

theorem dictLookup_dictInsert_self (d : SongsDict) (k : Nat) (v : ℚ) :
    dictLookup (dictInsert d k v) k = some v := by
  unfold dictInsert dictLookup
  split
  · rename_i hany
    induction d with
    | nil => simp at hany
    | cons a d ih =>
      rw [List.map_cons]
      by_cases hk : a.1 = k
      · rw [if_pos (by simpa using hk), List.find?_cons_of_pos _ (by simp)]
        rfl
      · rw [if_neg (by simpa using hk), List.find?_cons_of_neg _ (by simpa using hk)]
        exact ih (by simpa [hk] using hany)
  · rename_i hany
    induction d with
    | nil => simp [List.find?]
    | cons a d ih =>
      simp only [List.any_cons, Bool.or_eq_true, not_or] at hany
      rw [List.cons_append, List.find?_cons_of_neg _ (by simpa using hany.1)]
      exact ih hany.2

theorem dictLookup_dictInsert_ne (d : SongsDict) (k k' : Nat) (v : ℚ) (h : k' ≠ k) :
    dictLookup (dictInsert d k v) k' = dictLookup d k' := by
  unfold dictInsert dictLookup
  split
  · rename_i hany
    clear hany
    induction d with
    | nil => simp
    | cons a d ih =>
      rw [List.map_cons]
      by_cases hk : a.1 = k
      · rw [if_pos (by simpa using hk),
          List.find?_cons_of_neg _ (by simpa using Ne.symm h),
          List.find?_cons_of_neg _ (by simp [hk]; exact Ne.symm h)]
        exact ih
      · rw [if_neg (by simpa using hk)]
        by_cases hk' : a.1 = k'
        · rw [List.find?_cons_of_pos _ (by simpa using hk'),
            List.find?_cons_of_pos _ (by simpa using hk')]
        · rw [List.find?_cons_of_neg _ (by simpa using hk'),
            List.find?_cons_of_neg _ (by simpa using hk')]
          exact ih
  · rename_i hany
    clear hany
    induction d with
    | nil =>
      have hkk : (k == k') = false := by simpa using Ne.symm h
      simp [List.find?, hkk]
    | cons a d ih =>
      by_cases hk' : a.1 = k'
      · rw [List.cons_append, List.find?_cons_of_pos _ (by simpa using hk'),
          List.find?_cons_of_pos _ (by simpa using hk')]
      · rw [List.cons_append, List.find?_cons_of_neg _ (by simpa using hk'),
          List.find?_cons_of_neg _ (by simpa using hk')]
        exact ih

theorem mem_dictInsert (d : SongsDict) (k : Nat) (v : ℚ) (p : Nat × ℚ)
    (hp : p ∈ dictInsert d k v) : p ∈ d ∨ p = (k, v) := by
  unfold dictInsert at hp
  split at hp
  · obtain ⟨q, hq, hfq⟩ := List.mem_map.mp hp
    by_cases h : q.1 = k
    · rw [if_pos (by simpa using h)] at hfq
      right; exact hfq.symm
    · rw [if_neg (by simpa using h)] at hfq
      left; exact hfq ▸ hq
  · rcases List.mem_append.mp hp with h | h
    · exact Or.inl h
    · simp only [List.mem_singleton] at h
      right; exact h

theorem dictKeysNodup_dictInsert (d : SongsDict) (k : Nat) (v : ℚ)
    (h : dictKeysNodup d) : dictKeysNodup (dictInsert d k v) := by
  unfold dictKeysNodup dictInsert
  split
  · have heq : (d.map (fun p => if p.1 == k then (k, v) else p)).map Prod.fst
        = d.map Prod.fst := by
      rw [List.map_map]
      refine List.map_congr_left ?_
      intro p _
      by_cases hp : p.1 = k <;> simp [hp]
    rw [heq]; exact h
  · rename_i hany
    have hk : k ∉ d.map Prod.fst := by
      intro hmem
      obtain ⟨p, hp, hpk⟩ := List.mem_map.mp hmem
      exact hany (List.any_of_mem hp (by simpa using hpk))
    rw [List.map_append]
    refine List.Nodup.append h (List.nodup_singleton k) ?_
    intro a ha hb
    simp only [List.map_cons, List.map_nil, List.mem_singleton] at hb
    exact hk (hb ▸ ha)

theorem mem_dictMerge (a b : SongsDict) (p : Nat × ℚ) (hp : p ∈ dictMerge a b) :
    p ∈ a ∨ p ∈ b := by
  unfold dictMerge at hp
  induction b generalizing a with
  | nil => exact Or.inl hp
  | cons q b ih =>
    simp only [List.foldl_cons] at hp
    rcases ih (dictInsert a q.1 q.2) hp with h | h
    · rcases mem_dictInsert _ _ _ _ h with h' | h'
      · exact Or.inl h'
      · right; rw [h']; exact List.mem_cons_self _ _
    · right; exact List.mem_cons_of_mem _ h

theorem dictKeysNodup_dictMerge (a b : SongsDict) (h : dictKeysNodup a) :
    dictKeysNodup (dictMerge a b) := by
  unfold dictMerge
  induction b generalizing a with
  | nil => exact h
  | cons q b ih => exact ih _ (dictKeysNodup_dictInsert _ _ _ h)

theorem dictLookup_of_mem (d : SongsDict) (p : Nat × ℚ) (hd : dictKeysNodup d)
    (hp : p ∈ d) : dictLookup d p.1 = some p.2 := by
  unfold dictLookup
  induction d with
  | nil => simp at hp
  | cons a d ih =>
    rcases List.mem_cons.mp hp with h | h
    · rw [h, List.find?_cons_of_pos _ (by simp)]
      rfl
    · have hmem : p.1 ∈ d.map Prod.fst := List.mem_map.mpr ⟨p, h, rfl⟩
      simp only [dictKeysNodup, List.map_cons, List.nodup_cons] at hd
      have hne : (a.1 == p.1) = false := by
        simp only [beq_eq_false_iff_ne, ne_eq]
        intro hc
        exact hd.1 (hc ▸ hmem)
      rw [List.find?_cons_of_neg _ (by simpa using hne)]
      exact ih hd.2 h

theorem insert_initRoot (t : BinarySearchTree)
    (hshape : t.root = BinarySearchTree.init.root) (rating : ℚ) (song : Nat)
    (t' : BinarySearchTree) (h : t.insert rating song = .ok t') :
    t'.root = BinarySearchTree.init.root
      ∧ t'.store = storeSet t.store 0 (dictInsert (storeGet t.store 0) song rating) := by
  obtain ⟨root, store⟩ := t
  simp only at hshape
  subst hshape
  unfold BinarySearchTree.insert at h
  split at h
  · exact absurd h (by simp)
  · simp only [BinarySearchTree.init, BSTNode.insertRec] at h
    split_ifs at h
    all_goals simp_all [BinarySearchTree.init]
    all_goals (subst h; exact ⟨rfl, rfl⟩)

theorem mem_leafContrib (s e start stop : ℚ) (store : DictStore) (ref : Nat)
    (p : Nat × ℚ)
    (h : p ∈ (if s ≥ stop ∨ e ≤ start then ([] : SongsDict)
        else (storeGet store ref).filter (fun q => decide (start ≤ q.2 ∧ q.2 < stop)))) :
    p ∈ storeGet store ref ∧ start ≤ p.2 ∧ p.2 < stop := by
  split at h
  · simp at h
  · have := List.mem_filter.mp h
    exact ⟨this.1, by simpa using this.2⟩

theorem leafContrib_nodup (s e start stop : ℚ) (store : DictStore) (ref : Nat)
    (hd : dictKeysNodup (storeGet store ref)) :
    dictKeysNodup (if s ≥ stop ∨ e ≤ start then ([] : SongsDict)
      else (storeGet store ref).filter (fun q => decide (start ≤ q.2 ∧ q.2 < stop))) := by
  split
  · simp [dictKeysNodup]
  · exact List.Nodup.sublist (List.Sublist.map _ (List.filter_sublist _)) hd

theorem searchRec_initRoot_mem (store : DictStore) (start stop : ℚ) (p : Nat × ℚ)
    (hp : p ∈ BSTNode.searchRec start stop store BinarySearchTree.init.root) :
    p ∈ storeGet store 0 ∧ start ≤ p.2 ∧ p.2 < stop := by
  simp only [BinarySearchTree.init, BSTNode.searchRec] at hp
  rcases mem_dictMerge _ _ _ hp with h | h
  · rcases mem_dictMerge _ _ _ h with h' | h'
    · rcases mem_dictMerge _ _ _ h' with h'' | h''
      · exact mem_leafContrib _ _ _ _ _ _ _ h''
      · exact mem_leafContrib _ _ _ _ _ _ _ h''
    · exact mem_leafContrib _ _ _ _ _ _ _ h'
  · rcases mem_dictMerge _ _ _ h with h' | h'
    · exact mem_leafContrib _ _ _ _ _ _ _ h'
    · exact mem_leafContrib _ _ _ _ _ _ _ h'

theorem searchRec_initRoot_nodup (store : DictStore) (start stop : ℚ)
    (hd : dictKeysNodup (storeGet store 0)) :
    dictKeysNodup (BSTNode.searchRec start stop store BinarySearchTree.init.root) := by
  simp only [BinarySearchTree.init, BSTNode.searchRec]
  exact dictKeysNodup_dictMerge _ _
    (dictKeysNodup_dictMerge _ _
      (dictKeysNodup_dictMerge _ _ (leafContrib_nodup _ _ _ _ _ _ hd)))

theorem storeGet_storeSet_same (store : DictStore) (d : SongsDict)
    (h : 0 < store.length) : storeGet (storeSet store 0 d) 0 = d := by
  cases store with
  | nil => simp at h
  | cons a rest => simp [storeGet, storeSet]

/-- Claim C2 (refuting evaluation): the claim says that for every rating `r`
in `[0,5]`, `insert(r, id)` reaches exactly one leaf by repeated midpoint
descent and succeeds.  In the code, rating `4` descends `[0,6) → [3,6) →`
left of midpoint `4.5 →` the prebuilt leaf `[3,4)`, whose bounds check
raises `ValueError("Rating out of bounds for leaf node")`; likewise rating
`1.7` descends `[0,6) → [0,3) →` right of midpoint `1.5 →` the prebuilt leaf
`[2,3)` and raises.  The claim's own example — inserting rating `5.0`, then
`search(4,6)` returning it — does hold. -/
theorem claim_C2 :
    BinarySearchTree.init.insert 4 1 = .error "Rating out of bounds for leaf node"
    ∧ BinarySearchTree.init.insert (17/10) 2 = .error "Rating out of bounds for leaf node"
    ∧ ((BinarySearchTree.init.insert 5 1).bind fun t => t.search 4 6) = .ok [(1, 5)] := by
  refine ⟨?_, ?_, ?_⟩ <;>
    norm_num [BinarySearchTree.insert, BinarySearchTree.init, BSTNode.insertRec,
      BinarySearchTree.search, BSTNode.searchRec, dictInsert, dictMerge,
      storeGet, storeSet, Except.bind]

/-- Claim C4 (refuting evaluation): the claim says `delete(s)` returns `True`
exactly when `s` is stored in some leaf's mapping, removing it.  The code
tests `song in node.songs.values()` — membership among the rating *values* —
so deleting song `7`, stored with rating `3`, returns `False` and removes
nothing (a full-range search still returns it); and deleting id `5` when some
song is stored with rating `5` passes the values test and then crashes with
`KeyError` executing `del node.songs[5]`. -/
theorem claim_C4 :
    ((BinarySearchTree.init.insert 3 7).bind fun t => t.search 0 6) = .ok [(7, 3)]
    ∧ ((BinarySearchTree.init.insert 3 7).bind fun t =>
        (t.delete 7).map fun r => (r.1, r.2.store)) = .ok (false, [[(7, 3)]])
    ∧ ((BinarySearchTree.init.insert 5 7).bind fun t =>
        (t.delete 5).map fun r => (r.1, r.2.store)) = .error "KeyError" := by
  refine ⟨?_, ?_, ?_⟩ <;>
    norm_num [BinarySearchTree.insert, BinarySearchTree.init, BSTNode.insertRec,
      BinarySearchTree.search, BSTNode.searchRec, BinarySearchTree.delete,
      BSTNode.deleteRec, dictInsert, dictMerge, dictDel, storeGet, storeSet,
      Except.bind, Except.map]

/-- Claim C5: all five leaf nodes built by the `BinarySearchTree` constructor
share one and the same songs dictionary object (references all `0`, the leaf
constructor's default argument), so every `insert(rating, song)` becomes
visible in every leaf's mapping, and re-inserting the same song with a
different rating overwrites the single shared entry; `search(start, end)`
nevertheless returns each inserted song at most once, with its most recently
inserted rating, because each leaf filters the shared mapping by the query
range and the per-leaf results are merged by song identifier.  The
hypotheses say the state is reachable: the tree has the constructor's shape
(inserts never change it, since no bucket child is ever `None`), the store
holds the one allocated dict object, and its keys are distinct. -/
theorem claim_C5 (t : BinarySearchTree)
    (hshape : t.root = BinarySearchTree.init.root)
    (hlen : 0 < t.store.length)
    (hnodup : dictKeysNodup (storeGet t.store 0)) :
    t.root.leafRefs = [0, 0, 0, 0, 0]
    ∧ (∀ rating song t', t.insert rating song = .ok t' →
        ∀ ref ∈ t'.root.leafRefs, dictLookup (storeGet t'.store ref) song = some rating)
    ∧ (∀ r₁ r₂ song t₁ t₂, t.insert r₁ song = .ok t₁ → t₁.insert r₂ song = .ok t₂ →
        dictLookup (storeGet t₂.store 0) song = some r₂
          ∧ dictKeysNodup (storeGet t₂.store 0))
    ∧ (∀ start stop res, t.search start stop = .ok res →
        dictKeysNodup res
          ∧ ∀ p ∈ res, dictLookup (storeGet t.store 0) p.1 = some p.2
              ∧ start ≤ p.2 ∧ p.2 < stop) := by
  refine ⟨?_, ?_, ?_, ?_⟩
  · rw [hshape]; rfl
  · intro rating song t' h ref href
    obtain ⟨hs', hst⟩ := insert_initRoot t hshape rating song t' h
    rw [hs'] at href
    have : ref = 0 := by
      simpa [BinarySearchTree.init, BSTNode.leafRefs] using href
    subst this
    rw [hst, storeGet_storeSet_same _ _ hlen]
    exact dictLookup_dictInsert_self _ _ _
  · intro r₁ r₂ song t₁ t₂ h₁ h₂
    obtain ⟨hs₁, hst₁⟩ := insert_initRoot t hshape r₁ song t₁ h₁
    obtain ⟨hs₂, hst₂⟩ := insert_initRoot t₁ hs₁ r₂ song t₂ h₂
    have hlen₁ : 0 < t₁.store.length := by
      rw [hst₁]; simpa [storeSet] using hlen
    rw [hst₂, storeGet_storeSet_same _ _ hlen₁, hst₁, storeGet_storeSet_same _ _ hlen]
    refine ⟨dictLookup_dictInsert_self _ _ _, ?_⟩
    exact dictKeysNodup_dictInsert _ _ _ (dictKeysNodup_dictInsert _ _ _ hnodup)
  · intro start stop res h
    rw [BinarySearchTree.search] at h
    split at h
    · simp at h
    · simp only [Except.ok.injEq] at h
      subst h
      rw [hshape]
      refine ⟨searchRec_initRoot_nodup _ _ _ hnodup, ?_⟩
      intro p hp
      obtain ⟨hmem, hlo, hhi⟩ := searchRec_initRoot_mem _ _ _ _ hp
      exact ⟨dictLookup_of_mem _ _ hnodup hmem, hlo, hhi⟩

/-- Witness for C5: the constructor state itself satisfies the hypotheses,
and inserting rating `3` for song `7` lands in the dict every leaf shares. -/
theorem claim_C5_witness :
    BinarySearchTree.init.root.leafRefs = [0, 0, 0, 0, 0]
    ∧ dictLookup (storeGet ([[(7, 3)]] : DictStore) 0) 7 = some 3 := by
  have hins : BinarySearchTree.init.insert 3 7
      = .ok ⟨BinarySearchTree.init.root, [[(7, 3)]]⟩ := by
    norm_num [BinarySearchTree.insert, BinarySearchTree.init, BSTNode.insertRec,
      dictInsert, storeGet, storeSet]
  have h := claim_C5 BinarySearchTree.init rfl (by simp [BinarySearchTree.init])
    (by simp [storeGet, BinarySearchTree.init, dictKeysNodup])
  exact ⟨h.1, h.2.1 3 7 ⟨BinarySearchTree.init.root, [[(7, 3)]]⟩ hins 0
    (by simp [BinarySearchTree.init, BSTNode.leafRefs])⟩

/-- Claim C1 (refuting evaluation): the claim says sorting and then undoing
one change restores the pre-sort order, because the change record carries a
snapshot of the pre-mutation sequence.  The code pushes
`Change("sort", [..., self.__songs])` — a live reference to the playlist's
one sequence object, not a snapshot — and `sort_list` then mutates that very
object in place, so the undo assignment `self.__songs = change.change[1]`
rebinds to the already-sorted object.  On the spec's own scenario — append
A(id 1, 180s) and B(id 2, 240s), `sort("duration", descending)` giving
[B, A] — `undo(1)` leaves the order [B, A] instead of restoring [A, B]. -/
theorem claim_C1 :
    let m : SongMap := ⟨[(1, ⟨1, "A", ["X"], 180⟩), (2, ⟨2, "B", ["Y"], 240⟩)]⟩
    let p := Playlist.sort_playlist m
      ((Playlist.init "P").add_song 1 0 |>.add_song 2 1) .duration true
    p.songs.map (fun n => n.song) = [2, 1]
    ∧ (p.undo_changes 1 5).map (fun q => q.songs.map (fun n => n.song))
        = .ok [2, 1] := by
  decide

theorem undoStep_edits (p : Playlist) (c : ChangeData) (now : Nat)
    (p' : Playlist) (h : p.undoStep c now = .ok p') : p'.edits = p.edits := by
  cases c <;> simp only [Playlist.undoStep, Playlist.setSongs] at h <;>
    first
      | (simp only [Except.ok.injEq] at h; subst h; rfl)
      | (split at h <;> simp_all <;> (subst h; rfl))

theorem undoStep_set_edits (p : Playlist) (X : List ChangeData) (c : ChangeData)
    (now : Nat) :
    Playlist.undoStep { p with edits := X } c now
      = (Playlist.undoStep p c now).map (fun q => { q with edits := X }) := by
  cases c <;>
    simp only [Playlist.undoStep, Playlist.setSongs, Playlist.songs, Except.map] <;>
    first
      | rfl
      | (split <;> rfl)

theorem undoSpecLIFO_edits (now : Nat) (cs : List ChangeData) (p p' : Playlist)
    (h : Playlist.undoSpecLIFO now p cs = .ok p') : p'.edits = p.edits := by
  induction cs generalizing p with
  | nil => simp only [Playlist.undoSpecLIFO, Except.ok.injEq] at h; subst h; rfl
  | cons c cs ih =>
    simp only [Playlist.undoSpecLIFO] at h
    split at h
    · exact absurd h (by simp)
    · rename_i q hq
      rw [ih _ h, undoStep_edits p c now q hq]

theorem undoLoop_eq_spec (now : Nat) (n : Nat) (p : Playlist)
    (hn : n ≤ p.edits.length) :
    Playlist.undoLoop now p n
      = Playlist.undoSpecLIFO now
          { p with edits := p.edits.take (p.edits.length - n) }
          ((p.edits.drop (p.edits.length - n)).reverse) := by
  induction n generalizing p with
  | zero =>
    simp only [Playlist.undoLoop, Nat.sub_zero, List.take_length, List.drop_length,
      List.reverse_nil, Playlist.undoSpecLIFO]
  | succ n ih =>
    rcases List.eq_nil_or_concat p.edits with he | ⟨E, c, he⟩
    · rw [he] at hn; simp at hn
    · rw [List.concat_eq_append] at he
      have hE : n ≤ E.length := by
        rw [he] at hn; simpa [List.length_append] using hn
      have hk : p.edits.length - (n + 1) = E.length - n := by
        rw [he]; simp [List.length_append]
      rw [Playlist.undoLoop, he, List.getLast?_concat]
      have hdl : (E ++ [c]).dropLast = E := List.dropLast_concat
      rw [hdl]
      have htake : (E ++ [c]).take (E.length - n) = E.take (E.length - n) :=
        List.take_append_of_le_length (Nat.sub_le _ _)
      have hdrop : ((E ++ [c]).drop (E.length - n)).reverse
          = c :: (E.drop (E.length - n)).reverse := by
        rw [List.drop_append_of_le_length (Nat.sub_le _ _)]
        simp
      rw [← he, hk, he, htake, hdrop, Playlist.undoSpecLIFO]
      rw [show ({ p with edits := E.take (E.length - n) } : Playlist)
            = { ({ p with edits := E } : Playlist) with
                edits := E.take (E.length - n) } from rfl,
        undoStep_set_edits]
      cases hstep : Playlist.undoStep { p with edits := E } c now with
      | error msg => simp only [hstep, Except.map]
      | ok q =>
        simp only [hstep, Except.map]
        rw [ih _ (by simpa [undoStep_edits _ _ _ _ hstep] using hE)]
        have hq : q.edits = E := undoStep_edits _ _ _ _ hstep
        rw [show ({ q with edits := E.take (E.length - n) } : Playlist)
              = { q with edits := q.edits.take (q.edits.length - n) } by rw [hq],
          show (E.drop (E.length - n)).reverse
              = (q.edits.drop (q.edits.length - n)).reverse by rw [hq]]

/-- Claim C6: `undo_changes(n)` fails with an invalid-argument error whenever
`n < 1`, fails whenever `n` exceeds the number of recorded change records,
and otherwise pops and reverses exactly the `n` most recent change records in
LIFO order — it equals reversing, one by one, the most-recent-first list
`(edits.drop (len - n)).reverse` starting from the stack already shortened to
its first `len - n` records — leaving the edit stack `n` entries shorter. -/
theorem claim_C6 (p : Playlist) (num : Int) (now : Nat) :
    (num < 1 → p.undo_changes num now = .error "Number of undos must be at least 1")
    ∧ (1 ≤ num → (p.edits.length : Int) < num →
        p.undo_changes num now = .error "Not enough edits to undo")
    ∧ (1 ≤ num → num ≤ (p.edits.length : Int) →
        p.undo_changes num now
          = Playlist.undoSpecLIFO now
              { p with edits := p.edits.take (p.edits.length - num.toNat) }
              ((p.edits.drop (p.edits.length - num.toNat)).reverse)
          ∧ ∀ p', p.undo_changes num now = .ok p' →
              p'.edits = p.edits.take (p.edits.length - num.toNat)
              ∧ p'.edits.length = p.edits.length - num.toNat) := by
  refine ⟨?_, ?_, ?_⟩
  · intro h
    rw [Playlist.undo_changes, if_pos h]
  · intro h1 h2
    rw [Playlist.undo_changes, if_neg (by omega), if_pos (by omega)]
  · intro h1 h2
    have hrun : p.undo_changes num now
        = Playlist.undoSpecLIFO now
            { p with edits := p.edits.take (p.edits.length - num.toNat) }
            ((p.edits.drop (p.edits.length - num.toNat)).reverse) := by
      rw [Playlist.undo_changes, if_neg (by omega), if_neg (by omega)]
      exact undoLoop_eq_spec now num.toNat p (by omega)
    refine ⟨hrun, ?_⟩
    intro p' hp'
    rw [hrun] at hp'
    have := undoSpecLIFO_edits _ _ _ _ hp'
    simp only at this
    refine ⟨this, ?_⟩
    rw [this, List.length_take]
    omega

/-- Witness for C6: a playlist with one recorded `add` undone once; and the
two error conditions at concrete arguments. -/
theorem claim_C6_witness :
    (Playlist.undo_changes ⟨"P", [[⟨1, 0⟩]], 0, [ChangeData.add 1]⟩ 1 5
        = Playlist.undoSpecLIFO 5 ⟨"P", [[⟨1, 0⟩]], 0, []⟩ [ChangeData.add 1])
    ∧ Playlist.undo_changes ⟨"P", [[⟨1, 0⟩]], 0, [ChangeData.add 1]⟩ 0 5
        = .error "Number of undos must be at least 1"
    ∧ Playlist.undo_changes ⟨"P", [[⟨1, 0⟩]], 0, [ChangeData.add 1]⟩ 2 5
        = .error "Not enough edits to undo" := by
  have h := claim_C6 ⟨"P", [[⟨1, 0⟩]], 0, [ChangeData.add 1]⟩ 1 5
  refine ⟨?_, ?_, ?_⟩
  · exact (h.2.2 (by decide) (by decide)).1
  · exact (claim_C6 ⟨"P", [[⟨1, 0⟩]], 0, [ChangeData.add 1]⟩ 0 5).1 (by decide)
  · exact (claim_C6 ⟨"P", [[⟨1, 0⟩]], 0, [ChangeData.add 1]⟩ 2 5).2.1 (by decide) (by decide)

/-- Claim C8: `move_song(from, to)` fails with an out-of-range error whenever
`from` or `to` is outside `[0, size)`; when both are in range it is the
composition of `remove(from)` and `insert(to, removedSong)`, with `to`
interpreted as a position in the sequence after the removal. -/
theorem claim_C8 (p : Playlist) (from_index to_index : Int) (now : Nat) :
    ((from_index < 0 ∨ from_index ≥ (p.get_size : Int)
        ∨ to_index < 0 ∨ to_index ≥ (p.get_size : Int)) →
      p.move_song from_index to_index now = .error "Index out of bounds")
    ∧ (0 ≤ from_index → from_index < (p.get_size : Int) →
        0 ≤ to_index → to_index < (p.get_size : Int) →
        ∃ song l', DLL.remove p.songs from_index = .ok (song, l')
          ∧ DLL.insert l' to_index song now
              = .ok (DLL.move p.songs from_index to_index now)
          ∧ p.move_song from_index to_index now
              = .ok ({ p with
                  edits := p.edits ++ [ChangeData.move from_index to_index] }.setSongs
                    (DLL.move p.songs from_index to_index now))) := by
  constructor
  · intro h
    rw [Playlist.move_song, if_pos h]
  · intro h1 h2 h3 h4
    have hsz : p.get_size = p.songs.length := rfl
    rw [hsz] at h2 h4
    have hrem : DLL.remove p.songs from_index
        = .ok (lget (p.songs.map (fun n => n.song)) from_index.toNat,
            p.songs.eraseIdx from_index.toNat) := by
      rw [DLL.remove, if_neg (by omega)]
    refine ⟨_, _, hrem, ?_, ?_⟩
    · have hlen : ((p.songs.eraseIdx from_index.toNat).length : Int)
          = (p.songs.length : Int) - 1 := by
        rw [List.length_eraseIdx]
        split
        · omega
        · rename_i hcon
          exfalso
          apply hcon
          omega
      have hins : DLL.insert (p.songs.eraseIdx from_index.toNat) to_index
          (lget (p.songs.map (fun n => n.song)) from_index.toNat) now
          = .ok ((p.songs.eraseIdx from_index.toNat).insertIdx to_index.toNat
              ⟨lget (p.songs.map (fun n => n.song)) from_index.toNat, now⟩) := by
        rw [DLL.insert, if_neg (by omega)]
      rw [DLL.move, if_neg (by omega), if_neg (by omega), hrem]
      simp only [hins]
    · rw [Playlist.move_song, if_neg (by rw [hsz]; omega)]

/-- Witness for C8: moving the front song of a two-song sequence to position
1, and a concrete out-of-range failure. -/
theorem claim_C8_witness :
    (∃ song l', DLL.remove [⟨1, 0⟩, ⟨2, 1⟩] 0 = .ok (song, l')
      ∧ DLL.insert l' 1 song 7 = .ok (DLL.move [⟨1, 0⟩, ⟨2, 1⟩] 0 1 7)
      ∧ Playlist.move_song ⟨"P", [[⟨1, 0⟩, ⟨2, 1⟩]], 0, []⟩ 0 1 7
          = .ok ((⟨"P", [[⟨1, 0⟩, ⟨2, 1⟩]], 0, [ChangeData.move 0 1]⟩ : Playlist).setSongs
                (DLL.move [⟨1, 0⟩, ⟨2, 1⟩] 0 1 7)))
    ∧ Playlist.move_song ⟨"P", [[⟨1, 0⟩, ⟨2, 1⟩]], 0, []⟩ 0 2 7
        = .error "Index out of bounds" := by
  constructor
  · exact (claim_C8 ⟨"P", [[⟨1, 0⟩, ⟨2, 1⟩]], 0, []⟩ 0 1 7).2
      (by decide) (by decide) (by decide) (by decide)
  · exact (claim_C8 ⟨"P", [[⟨1, 0⟩, ⟨2, 1⟩]], 0, []⟩ 0 2 7).1 (by decide)

theorem lswap_length (arr : List T) (i j : Nat) :
    (lswap arr i j).length = arr.length := by
  unfold lswap
  split <;> simp_all

theorem lget_lswap [Inhabited T] (arr : List T) (i j m : Nat)
    (hi : i < arr.length) (hj : j < arr.length) :
    lget (lswap arr i j) m
      = if m = j then lget arr i else if m = i then lget arr j else lget arr m := by
  have hgi : arr.get? i = some (lget arr i) := by
    simp [lget, List.get?_eq_getElem?, List.getElem?_eq_getElem hi]
  have hgj : arr.get? j = some (lget arr j) := by
    simp [lget, List.get?_eq_getElem?, List.getElem?_eq_getElem hj]
  unfold lswap
  rw [hgi, hgj]
  simp only [lget, List.get?_eq_getElem?]
  by_cases hmj : m = j
  · subst hmj
    rw [List.getElem?_set_self (by simpa [List.length_set] using hj)]
    simp
  · rw [List.getElem?_set_ne (by omega)]
    by_cases hmi : m = i
    · subst hmi
      rw [List.getElem?_set_self (by simpa using hi)]
      simp [hmj]
    · rw [List.getElem?_set_ne (by omega)]
      simp [hmj, hmi]

theorem lget_lswap_ne [Inhabited T] (arr : List T) (i j m : Nat)
    (hmi : m ≠ i) (hmj : m ≠ j) :
    lget (lswap arr i j) m = lget arr m := by
  unfold lswap
  split
  · simp only [lget, List.get?_eq_getElem?]
    rw [List.getElem?_set_ne (by omega), List.getElem?_set_ne (by omega)]
  · rfl

theorem cons_set_perm (xs : List T) (k : Nat) (b x : T)
    (h : xs.get? k = some b) : (b :: xs.set k x).Perm (x :: xs) := by
  have hk : k < xs.length := by
    by_contra hc
    rw [List.get?_eq_getElem?, List.getElem?_eq_none (by omega)] at h
    exact absurd h (by simp)
  have hb : xs[k] = b := by
    rw [List.get?_eq_getElem?, List.getElem?_eq_getElem hk] at h
    simpa using h
  have hxs : xs = xs.take k ++ xs[k] :: xs.drop (k + 1) := by
    conv_lhs => rw [← List.take_append_drop k xs]
    rw [List.drop_eq_getElem_cons hk]
  rw [List.set_eq_take_cons_drop x hk]
  refine List.Perm.trans (List.Perm.cons b List.perm_middle) ?_
  refine List.Perm.trans (List.Perm.swap x b _) ?_
  refine List.Perm.trans (List.Perm.cons x List.perm_middle.symm) ?_
  rw [← hb, ← hxs]

theorem perm_set_set (arr : List T) (i j : Nat) (a b : T)
    (ha : arr.get? i = some a) (hb : arr.get? j = some b) :
    ((arr.set i b).set j a).Perm arr := by
  induction arr generalizing i j with
  | nil => simp [List.get?] at ha
  | cons x xs ih =>
    cases i with
    | zero =>
      cases j with
      | zero =>
        simp only [List.get?] at ha hb
        injection ha with ha
        injection hb with hb
        subst ha
        subst hb
        simp [List.set_set]
      | succ j' =>
        simp only [List.get?] at ha hb
        injection ha with ha
        subst ha
        simpa [List.set] using cons_set_perm xs j' b x hb
    | succ i' =>
      cases j with
      | zero =>
        simp only [List.get?] at ha hb
        injection hb with hb
        subst hb
        simpa [List.set] using cons_set_perm xs i' a x ha
      | succ j' =>
        simp only [List.get?] at ha hb
        simpa [List.set] using List.Perm.cons x (ih i' j' ha hb)

theorem lswap_perm (arr : List T) (i j : Nat) : (lswap arr i j).Perm arr := by
  unfold lswap
  split
  · rename_i a b ha hb
    exact perm_set_set arr i j a b ha hb
  · exact List.Perm.refl _

theorem extremeIdx_false_eq [Inhabited T] [LinearOrder K] (key : T → K)
    (arr : List T) (size root : Nat) :
    extremeIdx key false arr size root
      = if 2 * root + 2 < size ∧ key (lget arr (2 * root + 2))
            > key (lget arr (if 2 * root + 1 < size
                ∧ key (lget arr (2 * root + 1)) > key (lget arr root)
              then 2 * root + 1 else root))
        then 2 * root + 2
        else if 2 * root + 1 < size
            ∧ key (lget arr (2 * root + 1)) > key (lget arr root)
          then 2 * root + 1 else root := rfl

theorem extremeIdx_true_eq [Inhabited T] [LinearOrder K] (key : T → K)
    (arr : List T) (size root : Nat) :
    extremeIdx key true arr size root
      = if 2 * root + 2 < size ∧ key (lget arr (2 * root + 2))
            < key (lget arr (if 2 * root + 1 < size
                ∧ key (lget arr (2 * root + 1)) < key (lget arr root)
              then 2 * root + 1 else root))
        then 2 * root + 2
        else if 2 * root + 1 < size
            ∧ key (lget arr (2 * root + 1)) < key (lget arr root)
          then 2 * root + 1 else root := rfl

theorem extremeIdx_ne_imp [Inhabited T] [LinearOrder K] (key : T → K)
    (reverse : Bool) (arr : List T) (size root : Nat)
    (h : extremeIdx key reverse arr size root ≠ root) :
    root < extremeIdx key reverse arr size root
      ∧ extremeIdx key reverse arr size root < size := by
  cases reverse
  · rw [extremeIdx_false_eq] at h ⊢
    split_ifs at h ⊢ <;> omega
  · rw [extremeIdx_true_eq] at h ⊢
    split_ifs at h ⊢ <;> omega

theorem extremeIdx_key_le [Inhabited T] [LinearOrder K] (key : T → K)
    (arr : List T) (size root : Nat) :
    key (lget arr root) ≤ key (lget arr (extremeIdx key false arr size root))
    ∧ (2 * root + 1 < size →
        key (lget arr (2 * root + 1))
          ≤ key (lget arr (extremeIdx key false arr size root)))
    ∧ (2 * root + 2 < size →
        key (lget arr (2 * root + 2))
          ≤ key (lget arr (extremeIdx key false arr size root))) := by
  rw [extremeIdx_false_eq]
  split_ifs with h1 h2 h3 <;> push_neg at *
  · exact ⟨le_of_lt (lt_trans h1.2 h2.2), fun _ => le_of_lt h2.2, fun _ => le_refl _⟩
  · exact ⟨le_of_lt h1.2, fun _ => le_refl _, fun hr => h2 hr⟩
  · exact ⟨le_of_lt h3.2, fun hl => le_trans (h1 hl) (le_of_lt h3.2), fun _ => le_refl _⟩
  · exact ⟨le_refl _, fun hl => h1 hl, fun hr => h3 hr⟩

theorem extremeIdx_eq_imp [Inhabited T] [LinearOrder K] (key : T → K)
    (arr : List T) (size root : Nat)
    (h : extremeIdx key false arr size root = root) :
    ChildOK key arr size root := by
  have he := extremeIdx_key_le key arr size root
  rw [h] at he
  exact ⟨he.2.1, he.2.2⟩

theorem extremeIdx_cases [Inhabited T] [LinearOrder K] (key : T → K)
    (reverse : Bool) (arr : List T) (size root : Nat) :
    extremeIdx key reverse arr size root = root
    ∨ (extremeIdx key reverse arr size root = 2 * root + 1 ∧ 2 * root + 1 < size)
    ∨ (extremeIdx key reverse arr size root = 2 * root + 2 ∧ 2 * root + 2 < size) := by
  cases reverse
  · rw [extremeIdx_false_eq]
    split_ifs <;> simp_all <;> omega
  · rw [extremeIdx_true_eq]
    split_ifs <;> simp_all <;> omega

theorem heapifyF_length [Inhabited T] [LinearOrder K] (key : T → K)
    (reverse : Bool) (fuel : Nat) :
    ∀ (arr : List T) (size root : Nat),
      (heapifyF key reverse fuel arr size root).length = arr.length := by
  induction fuel with
  | zero => intro arr size root; rfl
  | succ fuel ih =>
    intro arr size root
    rw [heapifyF]
    split
    · rw [ih, lswap_length]
    · rfl

theorem heapifyF_perm [Inhabited T] [LinearOrder K] (key : T → K)
    (reverse : Bool) (fuel : Nat) :
    ∀ (arr : List T) (size root : Nat),
      (heapifyF key reverse fuel arr size root).Perm arr := by
  induction fuel with
  | zero => intro arr size root; exact List.Perm.refl _
  | succ fuel ih =>
    intro arr size root
    rw [heapifyF]
    split
    · exact List.Perm.trans (ih _ _ _) (lswap_perm _ _ _)
    · exact List.Perm.refl _

theorem heapifyF_untouched [Inhabited T] [LinearOrder K] (key : T → K)
    (reverse : Bool) (fuel : Nat) :
    ∀ (arr : List T) (size root m : Nat), m < root ∨ size ≤ m →
      lget (heapifyF key reverse fuel arr size root) m = lget arr m := by
  induction fuel with
  | zero => intro arr size root m _; rfl
  | succ fuel ih =>
    intro arr size root m hm
    rw [heapifyF]
    split
    · rename_i hne
      obtain ⟨hgt, hlt⟩ := extremeIdx_ne_imp key reverse arr size root hne
      rw [ih _ _ _ _ (by omega), lget_lswap_ne _ _ _ _ (by omega) (by omega)]
    · rfl

theorem heapifyF_drop [Inhabited T] [LinearOrder K] (key : T → K)
    (reverse : Bool) (fuel : Nat) :
    ∀ (arr : List T) (size root : Nat),
      (heapifyF key reverse fuel arr size root).drop size = arr.drop size := by
  induction fuel with
  | zero => intro arr size root; rfl
  | succ fuel ih =>
    intro arr size root
    rw [heapifyF]
    split
    · rename_i hne
      obtain ⟨hgt, hlt⟩ := extremeIdx_ne_imp key reverse arr size root hne
      rw [ih]
      unfold lswap
      split
      · rw [List.drop_set, if_pos (by omega), List.drop_set, if_pos (by omega)]
      · rfl
    · rfl

theorem heapifyF_untouched_strong [Inhabited T] [LinearOrder K] (key : T → K)
    (reverse : Bool) (fuel : Nat) :
    ∀ (arr : List T) (size root m : Nat), m ≠ root → m < 2 * root + 1 →
      lget (heapifyF key reverse fuel arr size root) m = lget arr m := by
  induction fuel with
  | zero => intro arr size root m _ _; rfl
  | succ fuel ih =>
    intro arr size root m hm1 hm2
    rw [heapifyF]
    split
    · rename_i hne
      have hca := extremeIdx_cases key reverse arr size root
      have hme : m ≠ extremeIdx key reverse arr size root := by
        rcases hca with h | ⟨h, _⟩ | ⟨h, _⟩ <;> omega
      rw [ih _ _ _ _ hme (by rcases hca with h | ⟨h, _⟩ | ⟨h, _⟩ <;> omega),
        lget_lswap_ne _ _ _ _ hm1 hme]
    · rfl

theorem take_lswap (arr : List T) (i j size : Nat) (hi : i < size) (hj : j < size) :
    (lswap arr i j).take size = lswap (arr.take size) i j := by
  unfold lswap
  have hti : (arr.take size).get? i = arr.get? i := by
    rw [List.get?_eq_getElem?, List.get?_eq_getElem?, List.getElem?_take, if_pos hi]
  have htj : (arr.take size).get? j = arr.get? j := by
    rw [List.get?_eq_getElem?, List.get?_eq_getElem?, List.getElem?_take, if_pos hj]
  rw [hti, htj]
  split
  · rw [List.set_take, List.set_take]
  · rfl

theorem heapifyF_main [Inhabited T] [LinearOrder K] (key : T → K) (fuel : Nat) :
    ∀ (arr : List T) (size root : Nat), size - root ≤ fuel → size ≤ arr.length →
      (∀ j, root < j → ChildOK key arr size j) →
      (∀ j, root ≤ j → ChildOK key (heapifyF key false fuel arr size root) size j)
      ∧ (∀ v : K,
          (2 * root + 1 < size → key (lget arr (2 * root + 1)) ≤ v) →
          (2 * root + 2 < size → key (lget arr (2 * root + 2)) ≤ v) →
          key (lget arr root) ≤ v →
          key (lget (heapifyF key false fuel arr size root) root) ≤ v) := by
  induction fuel with
  | zero =>
    intro arr size root hfuel hlen hpre
    constructor
    · intro j hj
      exact ⟨fun hc => absurd hc (by omega), fun hc => absurd hc (by omega)⟩
    · intro v _ _ h3
      exact h3
  | succ fuel ih =>
    intro arr size root hfuel hlen hpre
    rw [heapifyF]
    split
    · rename_i hne
      obtain ⟨hgt, hlt⟩ := extremeIdx_ne_imp key false arr size root hne
      have hca := extremeIdx_cases key false arr size root
      have hkey := extremeIdx_key_le key arr size root
      have hlt' : extremeIdx key false arr size root < arr.length := by omega
      have hroot' : root < arr.length := by omega
      -- values after the swap
      have hsw_root : lget (lswap arr root (extremeIdx key false arr size root)) root
          = lget arr (extremeIdx key false arr size root) := by
        rw [lget_lswap _ _ _ _ hroot' hlt']
        split
        · rename_i h; exact absurd h.symm hne
        · rw [if_pos rfl]
      have hsw_e : lget (lswap arr root (extremeIdx key false arr size root))
          (extremeIdx key false arr size root) = lget arr root := by
        rw [lget_lswap _ _ _ _ hroot' hlt', if_pos rfl]
      have hsw_ne : ∀ m, m ≠ root → m ≠ extremeIdx key false arr size root →
          lget (lswap arr root (extremeIdx key false arr size root)) m = lget arr m :=
        fun m h1 h2 => lget_lswap_ne _ _ _ _ h1 h2
      -- heap precondition for the recursive sift at the extreme index
      have hpre' : ∀ j, extremeIdx key false arr size root < j →
          ChildOK key (lswap arr root (extremeIdx key false arr size root)) size j := by
        intro j hj
        have h0 := hpre j (by omega)
        exact ⟨fun hc => by
            rw [hsw_ne (2 * j + 1) (by omega) (by omega), hsw_ne j (by omega) (by omega)]
            exact h0.1 hc,
          fun hc => by
            rw [hsw_ne (2 * j + 2) (by omega) (by omega), hsw_ne j (by omega) (by omega)]
            exact h0.2 hc⟩
      have hih := ih (lswap arr root (extremeIdx key false arr size root)) size
        (extremeIdx key false arr size root) (by omega)
        (by rw [lswap_length]; exact hlen) hpre'
      -- the recursive result bounded at its root by the pre-swap extreme value
      have hbound : key (lget (heapifyF key false fuel
            (lswap arr root (extremeIdx key false arr size root)) size
            (extremeIdx key false arr size root))
            (extremeIdx key false arr size root))
          ≤ key (lget arr (extremeIdx key false arr size root)) := by
        refine hih.2 (key (lget arr (extremeIdx key false arr size root))) ?_ ?_ ?_
        · intro hc
          rw [hsw_ne _ (by omega) (by omega)]
          exact (hpre _ hgt).1 hc
        · intro hc
          rw [hsw_ne _ (by omega) (by omega)]
          exact (hpre _ hgt).2 hc
        · rw [hsw_e]
          exact hkey.1
      constructor
      · intro j hj
        rcases Nat.lt_or_ge j (extremeIdx key false arr size root) with hje | hje
        · rcases Nat.eq_or_lt_of_le hj with hjr | hjr
          · -- j = root: its children are the extreme index and its sibling
            rw [← hjr]
            have hout_root : lget (heapifyF key false fuel
                  (lswap arr root (extremeIdx key false arr size root)) size
                  (extremeIdx key false arr size root)) root
                = lget arr (extremeIdx key false arr size root) := by
              rw [heapifyF_untouched _ _ _ _ _ _ _ (Or.inl hgt), hsw_root]
            refine ⟨fun hc => ?_, fun hc => ?_⟩
            · rcases eq_or_ne (2 * root + 1) (extremeIdx key false arr size root)
                with he | he
              · rw [hout_root, he]
                exact hbound
              · rw [hout_root,
                  heapifyF_untouched_strong _ _ _ _ _ _ _ he (by omega),
                  hsw_ne _ (by omega) he]
                exact hkey.2.1 hc
            · rcases eq_or_ne (2 * root + 2) (extremeIdx key false arr size root)
                with he | he
              · rw [hout_root, he]
                exact hbound
              · rw [hout_root,
                  heapifyF_untouched_strong _ _ _ _ _ _ _ he (by omega),
                  hsw_ne _ (by omega) he]
                exact hkey.2.2 hc
          · -- root < j < extreme: every referenced position is untouched
            have h0 := hpre j hjr
            have hj1 : 2 * j + 1 ≠ extremeIdx key false arr size root := by
              rcases hca with h | ⟨h, _⟩ | ⟨h, _⟩ <;> omega
            have hj2 : 2 * j + 2 ≠ extremeIdx key false arr size root := by
              rcases hca with h | ⟨h, _⟩ | ⟨h, _⟩ <;> omega
            refine ⟨fun hc => ?_, fun hc => ?_⟩
            · rw [heapifyF_untouched_strong _ _ _ _ _ _ _ hj1
                  (by rcases hca with h | ⟨h, _⟩ | ⟨h, _⟩ <;> omega),
                heapifyF_untouched _ _ _ _ _ _ _ (Or.inl hje),
                hsw_ne _ (by omega) hj1, hsw_ne _ (by omega) (by omega)]
              exact h0.1 hc
            · rw [heapifyF_untouched_strong _ _ _ _ _ _ _ hj2
                  (by rcases hca with h | ⟨h, _⟩ | ⟨h, _⟩ <;> omega),
                heapifyF_untouched _ _ _ _ _ _ _ (Or.inl hje),
                hsw_ne _ (by omega) hj2, hsw_ne _ (by omega) (by omega)]
              exact h0.2 hc
        · exact hih.1 j hje
      · intro v h1 h2 h3
        have hout_root : lget (heapifyF key false fuel
              (lswap arr root (extremeIdx key false arr size root)) size
              (extremeIdx key false arr size root)) root
            = lget arr (extremeIdx key false arr size root) := by
          rw [heapifyF_untouched _ _ _ _ _ _ _ (Or.inl hgt), hsw_root]
        rw [hout_root]
        rcases hca with h | ⟨h, hs⟩ | ⟨h, hs⟩
        · exact absurd h hne
        · rw [h]; exact h1 hs
        · rw [h]; exact h2 hs
    · rename_i hne
      push_neg at hne
      constructor
      · intro j hj
        rcases Nat.eq_or_lt_of_le hj with hjr | hjr
        · rw [← hjr]
          exact extremeIdx_eq_imp key arr size root hne
        · exact hpre j hjr
      · intro v _ _ h3
        exact h3

theorem heapifyF_take_perm [Inhabited T] [LinearOrder K] (key : T → K)
    (reverse : Bool) (fuel : Nat) :
    ∀ (arr : List T) (size root : Nat),
      ((heapifyF key reverse fuel arr size root).take size).Perm (arr.take size) := by
  induction fuel with
  | zero => intro arr size root; exact List.Perm.refl _
  | succ fuel ih =>
    intro arr size root
    rw [heapifyF]
    split
    · rename_i hne
      obtain ⟨hgt, hlt⟩ := extremeIdx_ne_imp key reverse arr size root hne
      refine List.Perm.trans (ih _ _ _) ?_
      rw [take_lswap _ _ _ _ (by omega) hlt]
      exact lswap_perm _ _ _
    · exact List.Perm.refl _

theorem childOK_le_root [Inhabited T] [LinearOrder K] (key : T → K)
    (arr : List T) (size : Nat) (hheap : ∀ j, ChildOK key arr size j) :
    ∀ i, i < size → key (lget arr i) ≤ key (lget arr 0) := by
  intro i
  induction i using Nat.strong_induction_on with
  | _ i ihp =>
    intro hi
    cases i with
    | zero => exact le_refl _
    | succ i' =>
      have hp : key (lget arr (i' + 1)) ≤ key (lget arr (i' / 2)) := by
        by_cases he : i' % 2 = 0
        · have h2 : i' + 1 = 2 * (i' / 2) + 1 := by omega
          rw [h2]
          exact (hheap (i' / 2)).1 (by omega)
        · have h2 : i' + 1 = 2 * (i' / 2) + 2 := by omega
          rw [h2]
          exact (hheap (i' / 2)).2 (by omega)
      exact le_trans hp (ihp (i' / 2) (by omega) (by omega))

theorem mem_take_le_root [Inhabited T] [LinearOrder K] (key : T → K)
    (arr : List T) (size : Nat) (hheap : ∀ j, ChildOK key arr size j)
    (x : T) (hx : x ∈ arr.take size) : key x ≤ key (lget arr 0) := by
  obtain ⟨m, hm, hxm⟩ := List.getElem_of_mem hx
  have hms : m < size := by
    have := List.length_take size arr
    omega
  have hxa : x = lget arr m := by
    rw [← hxm, List.getElem_take]
    simp [lget, List.get?_eq_getElem?, List.getElem?_eq_getElem
      (by have := List.length_take size arr; omega : m < arr.length)]
  rw [hxa]
  exact childOK_le_root key arr size hheap m hms

theorem buildFold_childOK [Inhabited T] [LinearOrder K] (key : T → K) (n : Nat) :
    ∀ (k : Nat) (arr : List T), n ≤ arr.length →
      (∀ j, k ≤ j → ChildOK key arr n j) →
      ∀ j, ChildOK key
        ((List.range k).reverse.foldl (fun a i => heapify key false a n i) arr) n j := by
  intro k
  induction k with
  | zero =>
    intro arr _ hpre j
    exact hpre j (Nat.zero_le j)
  | succ k ih =>
    intro arr hlen hpre j
    rw [List.range_succ, List.reverse_append, List.reverse_singleton,
      List.singleton_append, List.foldl_cons]
    refine ih (heapify key false arr n k) ?_ ?_ j
    · rw [heapify, heapifyF_length]
      exact hlen
    · intro j' hj'
      exact (heapifyF_main key (n - k) arr n k (le_refl _) hlen
        (fun j2 hj2 => hpre j2 (by omega))).1 j' hj'

theorem extractFold [Inhabited T] [LinearOrder K] (key : T → K) (n : Nat) :
    ∀ (i : Nat) (a : List T), a.length = n → i + 1 ≤ n →
      (∀ j, ChildOK key a (i + 1) j) →
      List.Pairwise (fun x y => key x ≤ key y) (a.drop (i + 1)) →
      (∀ x ∈ a.take (i + 1), ∀ y ∈ a.drop (i + 1), key x ≤ key y) →
      List.Pairwise (fun x y => key x ≤ key y)
          ((List.range' 1 i).reverse.foldl
            (fun b t => heapify key false (lswap b t 0) t 0) a)
      ∧ ((List.range' 1 i).reverse.foldl
            (fun b t => heapify key false (lswap b t 0) t 0) a).Perm a := by
  intro i
  induction i with
  | zero =>
    intro a hlen hi hheap hsorted hbound
    constructor
    · rw [show (List.range' 1 0).reverse = ([] : List Nat) from rfl, List.foldl_nil]
      conv_rhs => rw [← List.take_append_drop 1 a]
      rw [List.pairwise_append]
      refine ⟨?_, hsorted, fun x hx y hy => hbound x hx y hy⟩
      rcases a with _ | ⟨x, rest⟩ <;> simp
    · exact List.Perm.refl _
  | succ i ih =>
    intro a hlen hi hheap hsorted hbound
    have hidx : (List.range' 1 (i + 1)).reverse
        = (i + 1) :: (List.range' 1 i).reverse := by
      rw [List.range'_concat, List.reverse_append, List.reverse_singleton,
        List.singleton_append]
      simp [Nat.add_comm]
    rw [hidx, List.foldl_cons]
    have hi1 : i + 1 < a.length := by omega
    have h0 : 0 < a.length := by omega
    have hga : a.get? (i + 1) = some (lget a (i + 1)) := by
      simp [lget, List.get?_eq_getElem?, List.getElem?_eq_getElem hi1]
    have hg0 : a.get? 0 = some (lget a 0) := by
      simp [lget, List.get?_eq_getElem?, List.getElem?_eq_getElem h0]
    have ha1 : lswap a (i + 1) 0
        = (a.set (i + 1) (lget a 0)).set 0 (lget a (i + 1)) := by
      unfold lswap
      rw [hga, hg0]
    have hlen1 : (lswap a (i + 1) 0).length = a.length := lswap_length a _ _
    -- heap precondition for the sift at root 0 over the shrunk window [0, i+1)
    have hpre1 : ∀ j, 0 < j → ChildOK key (lswap a (i + 1) 0) (i + 1) j := by
      intro j hj
      have h0' := hheap j
      refine ⟨fun hc => ?_, fun hc => ?_⟩
      · rw [lget_lswap_ne _ _ _ _ (by omega) (by omega),
          lget_lswap_ne _ _ _ _ (by omega) (by omega)]
        exact h0'.1 (by omega)
      · rw [lget_lswap_ne _ _ _ _ (by omega) (by omega),
          lget_lswap_ne _ _ _ _ (by omega) (by omega)]
        exact h0'.2 (by omega)
    have hmain := heapifyF_main key (i + 1) (lswap a (i + 1) 0) (i + 1) 0
      (by omega) (by rw [hlen1]; omega) hpre1
    -- the region past the shrunk window starts with the extracted maximum
    have hdrop2 : (heapify key false (lswap a (i + 1) 0) (i + 1) 0).drop (i + 1)
        = lget a 0 :: a.drop (i + 2) := by
      rw [heapify, heapifyF_drop, ha1, List.drop_set, if_pos (by omega),
        List.drop_set]
      rw [if_neg (by omega), Nat.sub_self, List.drop_eq_getElem_cons hi1]
      have : a[i + 1] = lget a (i + 1) := by
        simp [lget, List.get?_eq_getElem?, List.getElem?_eq_getElem hi1]
      rw [this]
      rfl
    have htake2 : ((heapify key false (lswap a (i + 1) 0) (i + 1) 0).take (i + 1)).Perm
        ((a.take (i + 1)).set 0 (lget a (i + 1))) := by
      refine List.Perm.trans (heapifyF_take_perm key false (i + 1) _ _ _) ?_
      rw [ha1, List.set_take, List.set_take,
        show (a.take (i + 1)).set (i + 1) (lget a 0) = a.take (i + 1) from
          List.set_eq_of_length_le (by rw [List.length_take]; omega)]
    have hmem_take : ∀ x ∈ (heapify key false (lswap a (i + 1) 0) (i + 1) 0).take (i + 1),
        x ∈ a.take (i + 2) := by
      intro x hx
      have hx1 := htake2.mem_iff.mp hx
      rcases List.mem_or_eq_of_mem_set hx1 with hx2 | hx2
      · have hsub : a.take (i + 1) ⊆ a.take (i + 2) := by
          rw [List.take_succ (n := i + 1)]
          exact List.subset_append_left _ _
        exact hsub hx2
      · rw [List.take_succ (n := i + 1), hx2]
        have : a[i + 1]? = some (lget a (i + 1)) := by
          simp [lget, List.get?_eq_getElem?, List.getElem?_eq_getElem hi1]
        rw [this]
        simp
    refine ?_
    have hconc := ih (heapify key false (lswap a (i + 1) 0) (i + 1) 0)
      (by rw [heapify, heapifyF_length, hlen1]; exact hlen)
      (by omega)
      (fun j => hmain.1 j (Nat.zero_le j))
      (by
        rw [hdrop2]
        refine List.Pairwise.cons ?_ hsorted
        intro y hy
        exact hbound (lget a 0)
          (by
            rcases a with _ | ⟨x, rest⟩
            · simp at h0
            · simpa [lget] using List.mem_cons_self _ _)
          y hy)
      (by
        intro x hx y hy
        rw [hdrop2] at hy
        have hx2 := hmem_take x hx
        rcases List.mem_cons.mp hy with hy2 | hy2
        · rw [hy2]
          exact mem_take_le_root key a (i + 2) hheap x hx2
        · exact hbound x hx2 y hy2)
    refine ⟨hconc.1, List.Perm.trans hconc.2 ?_⟩
    exact List.Perm.trans (by rw [heapify]; exact heapifyF_perm key false (i + 1) _ _ _)
      (lswap_perm _ _ _)

theorem heap_sort_eq [Inhabited T] [LinearOrder K] (key : T → K) (reverse : Bool)
    (arr : List T) :
    heap_sort arr key reverse
      = (List.range' 1 (arr.length - 1)).reverse.foldl
          (fun a i => heapify key reverse (lswap a i 0) i 0)
          ((List.range (arr.length / 2)).reverse.foldl
            (fun a i => heapify key reverse a arr.length i) arr) := rfl

theorem foldl_heapify_length [Inhabited T] [LinearOrder K] (key : T → K)
    (reverse : Bool) (n : Nat) :
    ∀ (idxs : List Nat) (arr : List T),
      (idxs.foldl (fun a i => heapify key reverse a n i) arr).length = arr.length := by
  intro idxs
  induction idxs with
  | nil => intro arr; rfl
  | cons i idxs ih =>
    intro arr
    rw [List.foldl_cons, ih, heapify, heapifyF_length]

theorem foldl_heapify_perm [Inhabited T] [LinearOrder K] (key : T → K)
    (reverse : Bool) (n : Nat) :
    ∀ (idxs : List Nat) (arr : List T),
      (idxs.foldl (fun a i => heapify key reverse a n i) arr).Perm arr := by
  intro idxs
  induction idxs with
  | nil => intro arr; exact List.Perm.refl _
  | cons i idxs ih =>
    intro arr
    rw [List.foldl_cons]
    exact List.Perm.trans (ih _) (by rw [heapify]; exact heapifyF_perm key reverse _ _ _ _)

theorem heap_sort_sorted_perm_asc [Inhabited T] [LinearOrder K] (key : T → K)
    (arr : List T) :
    List.Pairwise (fun x y => key x ≤ key y) (heap_sort arr key false)
    ∧ (heap_sort arr key false).Perm arr := by
  have hblen : ((List.range (arr.length / 2)).reverse.foldl
      (fun a i => heapify key false a arr.length i) arr).length = arr.length :=
    foldl_heapify_length key false arr.length _ arr
  have hbperm : ((List.range (arr.length / 2)).reverse.foldl
      (fun a i => heapify key false a arr.length i) arr).Perm arr :=
    foldl_heapify_perm key false arr.length _ arr
  have hheap : ∀ j, ChildOK key
      ((List.range (arr.length / 2)).reverse.foldl
        (fun a i => heapify key false a arr.length i) arr) arr.length j := by
    refine buildFold_childOK key arr.length (arr.length / 2) arr (le_refl _) ?_
    intro j hj
    exact ⟨fun hc => absurd hc (by omega), fun hc => absurd hc (by omega)⟩
  rcases Nat.eq_zero_or_pos arr.length with h0 | h0
  · have harr : arr = [] := List.eq_nil_of_length_eq_zero h0
    subst harr
    have hnil : heap_sort ([] : List T) key false = [] := by
      rw [heap_sort_eq]
      simp
    rw [hnil]
    exact ⟨List.Pairwise.nil, List.Perm.refl _⟩
  · have hext := extractFold key arr.length (arr.length - 1)
      ((List.range (arr.length / 2)).reverse.foldl
        (fun a i => heapify key false a arr.length i) arr)
      hblen (by omega)
      (by
        have : arr.length - 1 + 1 = arr.length := by omega
        rw [this]
        exact hheap)
      (by
        have h1 : arr.length - 1 + 1 = arr.length := by omega
        rw [h1, List.drop_eq_nil_of_le (le_of_eq hblen)]
        exact List.Pairwise.nil)
      (by
        have h1 : arr.length - 1 + 1 = arr.length := by omega
        rw [h1, List.drop_eq_nil_of_le (le_of_eq hblen)]
        intro x _ y hy
        simp at hy)
    rw [heap_sort_eq]
    exact ⟨hext.1, List.Perm.trans hext.2 hbperm⟩

theorem extremeIdx_dual [Inhabited T] [LinearOrder K] (key : T → K)
    (arr : List T) (size root : Nat) :
    extremeIdx (fun t => OrderDual.toDual (key t)) false arr size root
      = extremeIdx key true arr size root := by
  rw [extremeIdx_false_eq, extremeIdx_true_eq]
  simp only [gt_iff_lt, OrderDual.toDual_lt_toDual]

theorem heapifyF_dual [Inhabited T] [LinearOrder K] (key : T → K) (fuel : Nat) :
    ∀ (arr : List T) (size root : Nat),
      heapifyF (fun t => OrderDual.toDual (key t)) false fuel arr size root
        = heapifyF key true fuel arr size root := by
  induction fuel with
  | zero => intro arr size root; rfl
  | succ fuel ih =>
    intro arr size root
    rw [heapifyF, heapifyF, extremeIdx_dual]
    split
    · rw [ih]
    · rfl

theorem heap_sort_dual [Inhabited T] [LinearOrder K] (key : T → K) (arr : List T) :
    heap_sort arr (fun t => OrderDual.toDual (key t)) false = heap_sort arr key true := by
  rw [heap_sort_eq, heap_sort_eq]
  have h1 : (fun (a : List T) (i : Nat) =>
        heapify (fun t => OrderDual.toDual (key t)) false a arr.length i)
      = fun a i => heapify key true a arr.length i := by
    funext a i
    rw [heapify, heapify, heapifyF_dual]
  have h2 : (fun (a : List T) (i : Nat) =>
        heapify (fun t => OrderDual.toDual (key t)) false (lswap a i 0) i 0)
      = fun a i => heapify key true (lswap a i 0) i 0 := by
    funext a i
    rw [heapify, heapify, heapifyF_dual]
  rw [h1, h2]

theorem heap_sort_sorted_perm_desc [Inhabited T] [LinearOrder K] (key : T → K)
    (arr : List T) :
    List.Pairwise (fun x y => key y ≤ key x) (heap_sort arr key true)
    ∧ (heap_sort arr key true).Perm arr := by
  have h := heap_sort_sorted_perm_asc (K := Kᵒᵈ) (fun t => OrderDual.toDual (key t)) arr
  rw [heap_sort_dual] at h
  exact ⟨h.1.imp (fun hab => OrderDual.toDual_le_toDual.mp hab), h.2⟩

theorem sortPriv_sorted_perm [Inhabited K] [LinearOrder K]
    (l : List DoublyLinkedListNode) (key : DoublyLinkedListNode → K) (reverse : Bool) :
    (reverse = false →
      List.Pairwise (fun x y => key x ≤ key y) (DLL.sortPriv l key false))
    ∧ (reverse = true →
      List.Pairwise (fun x y => key y ≤ key x) (DLL.sortPriv l key true))
    ∧ (DLL.sortPriv l key reverse).Perm l := by
  refine ⟨?_, ?_, ?_⟩
  · intro _
    rw [DLL.sortPriv]
    split
    · rename_i hle
      match l, hle with
      | [], _ => exact List.Pairwise.nil
      | [x], _ => exact List.pairwise_singleton _ _
    · exact (heap_sort_sorted_perm_asc key l).1
  · intro _
    rw [DLL.sortPriv]
    split
    · rename_i hle
      match l, hle with
      | [], _ => exact List.Pairwise.nil
      | [x], _ => exact List.pairwise_singleton _ _
    · exact (heap_sort_sorted_perm_desc key l).1
  · rw [DLL.sortPriv]
    split
    · exact List.Perm.refl _
    · cases reverse
      · exact (heap_sort_sorted_perm_asc key l).2
      · exact (heap_sort_sorted_perm_desc key l).2

/-- Claim C9: for every sequence and every criterion in {insertion-time,
catalog-name, catalog-duration} and either direction, after
`sort(criterion, descending)` every adjacent pair of songs satisfies the
ordering relation of that criterion (non-decreasing ascending,
non-increasing descending), and the sequence holds the same multiset of
songs as before.  The hypothesis scopes the statement to sequences whose
song ids all resolve in the catalog (otherwise the Python key function
raises before sorting); `song_at` is that catalog dereference. -/
theorem claim_C9 (m : SongMap) (l : List DoublyLinkedListNode) (reverse : Bool)
    (hpresent : ∀ node ∈ l, (m.search_song node.song).isSome = true) :
    (∀ st : SortType, (DLL.sort_list m l st reverse).Perm l)
    ∧ (reverse = false →
        List.Chain' (fun a b => a.add_time ≤ b.add_time)
            (DLL.sort_list m l .add_time false)
        ∧ List.Chain' (fun a b => (m.song_at a.song).name ≤ (m.song_at b.song).name)
            (DLL.sort_list m l .name false)
        ∧ List.Chain' (fun a b =>
              (m.song_at a.song).duration ≤ (m.song_at b.song).duration)
            (DLL.sort_list m l .duration false))
    ∧ (reverse = true →
        List.Chain' (fun a b => b.add_time ≤ a.add_time)
            (DLL.sort_list m l .add_time true)
        ∧ List.Chain' (fun a b => (m.song_at b.song).name ≤ (m.song_at a.song).name)
            (DLL.sort_list m l .name true)
        ∧ List.Chain' (fun a b =>
              (m.song_at b.song).duration ≤ (m.song_at a.song).duration)
            (DLL.sort_list m l .duration true)) := by
  refine ⟨?_, ?_, ?_⟩
  · intro st
    cases st <;>
      exact (sortPriv_sorted_perm l _ reverse).2.2
  · intro _
    refine ⟨?_, ?_, ?_⟩
    · exact ((sortPriv_sorted_perm l (fun node => node.add_time) false).1 rfl).chain'
    · exact ((sortPriv_sorted_perm l
        (fun node => (m.song_at node.song).name) false).1 rfl).chain'
    · exact ((sortPriv_sorted_perm l
        (fun node => (m.song_at node.song).duration) false).1 rfl).chain'
  · intro _
    refine ⟨?_, ?_, ?_⟩
    · exact ((sortPriv_sorted_perm l (fun node => node.add_time) true).2.1 rfl).chain'
    · exact ((sortPriv_sorted_perm l
        (fun node => (m.song_at node.song).name) true).2.1 rfl).chain'
    · exact ((sortPriv_sorted_perm l
        (fun node => (m.song_at node.song).duration) true).2.1 rfl).chain'

/-- Witness for C9: sorting a concrete two-song sequence by duration, both
directions, on a catalog resolving both ids. -/
theorem claim_C9_witness :
    (DLL.sort_list ⟨[(1, ⟨1, "A", ["X"], 180⟩), (2, ⟨2, "B", ["Y"], 240⟩)]⟩
        [⟨2, 1⟩, ⟨1, 0⟩] .duration false).Perm [⟨2, 1⟩, ⟨1, 0⟩]
    ∧ List.Chain' (fun a b =>
        ((⟨[(1, ⟨1, "A", ["X"], 180⟩), (2, ⟨2, "B", ["Y"], 240⟩)]⟩ : SongMap).song_at
            a.song).duration
          ≤ ((⟨[(1, ⟨1, "A", ["X"], 180⟩), (2, ⟨2, "B", ["Y"], 240⟩)]⟩ : SongMap).song_at
            b.song).duration)
        (DLL.sort_list ⟨[(1, ⟨1, "A", ["X"], 180⟩), (2, ⟨2, "B", ["Y"], 240⟩)]⟩
          [⟨2, 1⟩, ⟨1, 0⟩] .duration false) := by
  have h := claim_C9 ⟨[(1, ⟨1, "A", ["X"], 180⟩), (2, ⟨2, "B", ["Y"], 240⟩)]⟩
    [⟨2, 1⟩, ⟨1, 0⟩] false (by decide)
  exact ⟨h.1 .duration, (h.2.1 rfl).2.2⟩

/-! Association-map primitives for the `songs_by_artist` dict. -/

theorem agGet_nil (b : String) : agGet ([] : List (String × List α)) b = [] := by
  simp [agGet]

theorem agGet_cons_self (p : String × List α) (g : List (String × List α)) :
    agGet (p :: g) p.1 = p.2 := by
  simp [agGet, List.find?_cons_of_pos]

theorem agGet_cons_of_ne (p : String × List α) (g : List (String × List α))
    (b : String) (h : p.1 ≠ b) : agGet (p :: g) b = agGet g b := by
  unfold agGet
  rw [List.find?_cons_of_neg]
  simp [h]

theorem agGet_append_of_ne (xs ys : List (String × List α)) (b : String)
    (h : ∀ p ∈ xs, p.1 ≠ b) : agGet (xs ++ ys) b = agGet ys b := by
  induction xs with
  | nil => simp
  | cons p xs ih =>
    rw [List.cons_append, agGet_cons_of_ne p _ b (h p (List.mem_cons_self p xs))]
    exact ih (fun q hq => h q (List.mem_cons_of_mem p hq))

theorem agGet_of_mem {g : List (String × List α)}
    (hnd : (g.map Prod.fst).Nodup) {p : String × List α} (hp : p ∈ g) :
    agGet g p.1 = p.2 := by
  induction g with
  | nil => cases hp
  | cons q g ih =>
    rcases List.mem_cons.mp hp with rfl | hp'
    · exact agGet_cons_self p g
    · have hq : q.1 ≠ p.1 := by
        intro hEq
        exact (List.nodup_cons.mp hnd).1 (hEq ▸ List.mem_map_of_mem Prod.fst hp')
      rw [agGet_cons_of_ne q g p.1 hq]
      exact ih (List.nodup_cons.mp hnd).2 hp'

theorem agGet_eq_nil_of_not_mem {g : List (String × List α)} {b : String}
    (h : b ∉ g.map Prod.fst) : agGet g b = [] := by
  induction g with
  | nil => exact agGet_nil b
  | cons q g ih =>
    have hq : q.1 ≠ b := fun hEq => h (List.mem_cons.mpr (Or.inl hEq.symm))
    rw [agGet_cons_of_ne q g b hq]
    exact ih (fun hb => h (List.mem_cons_of_mem _ hb))

theorem exists_split_of_agGet_ne_nil {g : List (String × List α)} {a : String}
    (hnd : (g.map Prod.fst).Nodup) (h : agGet g a ≠ []) :
    ∃ g₁ l g₂, g = g₁ ++ (a, l) :: g₂ ∧ agGet g a = l
      ∧ (∀ p ∈ g₁, p.1 ≠ a) ∧ (∀ p ∈ g₂, p.1 ≠ a) := by
  induction g with
  | nil => exact absurd (agGet_nil a) h
  | cons q g ih =>
    by_cases hq : q.1 = a
    · refine ⟨[], q.2, g, ?_, ?_, by simp, ?_⟩
      · simp [← hq]
      · rw [← hq, agGet_cons_self]
      · intro p hp hpa
        exact (List.nodup_cons.mp hnd).1
          (hq ▸ hpa ▸ List.mem_map_of_mem Prod.fst hp)
    · rw [agGet_cons_of_ne q g a hq] at h
      obtain ⟨g₁, l, g₂, hsplit, hget, h₁, h₂⟩ := ih (List.nodup_cons.mp hnd).2 h
      exact ⟨q :: g₁, l, g₂, by rw [hsplit]; rfl,
        by rw [agGet_cons_of_ne q g a hq, hget],
        fun p hp => by
          rcases List.mem_cons.mp hp with rfl | hp'
          · exact hq
          · exact h₁ p hp', h₂⟩

theorem map_id_of_eq {l : List β} {f : β → β} (h : ∀ x ∈ l, f x = x) :
    l.map f = l := by
  induction l with
  | nil => rfl
  | cons x xs ih =>
    rw [List.map_cons, h x (List.mem_cons_self x xs),
      ih (fun y hy => h y (List.mem_cons_of_mem x hy))]

theorem agSet_split (g₁ : List (String × List α)) (a : String) (l : List α)
    (g₂ : List (String × List α)) (v : List α)
    (h₁ : ∀ p ∈ g₁, p.1 ≠ a) (h₂ : ∀ p ∈ g₂, p.1 ≠ a) :
    agSet (g₁ ++ (a, l) :: g₂) a v = g₁ ++ (a, v) :: g₂ := by
  unfold agSet
  rw [List.map_append, List.map_cons]
  have e₁ : g₁.map (fun p => if p.1 == a then (a, v) else p) = g₁ :=
    map_id_of_eq (fun p hp => by simp [h₁ p hp])
  have e₂ : g₂.map (fun p => if p.1 == a then (a, v) else p) = g₂ :=
    map_id_of_eq (fun p hp => by simp [h₂ p hp])
  rw [e₁, e₂]
  simp

theorem agTotal_nil : agTotal ([] : List (String × List α)) = 0 := rfl

theorem agTotal_append (xs ys : List (String × List α)) :
    agTotal (xs ++ ys) = agTotal xs + agTotal ys := by
  simp [agTotal]

theorem agTotal_cons (p : String × List α) (g : List (String × List α)) :
    agTotal (p :: g) = p.2.length + agTotal g := by
  simp [agTotal]

theorem length_le_agTotal {p : String × List α} {g : List (String × List α)}
    (hp : p ∈ g) : p.2.length ≤ agTotal g :=
  List.single_le_sum (fun x _ => Nat.zero_le x) _
    (List.mem_map_of_mem (fun q => q.2.length) hp)

/-! `heapq` model facts: the popped entry is a member with minimal count, and
the rest is the heap minus that one entry. -/

theorem tupLtb_fst_le {x y : Int × String} (h : tupLtb x y = true) :
    x.1 ≤ y.1 := by
  simp only [tupLtb, Bool.or_eq_true, Bool.and_eq_true, decide_eq_true_eq,
    beq_iff_eq] at h
  rcases h with h | ⟨h, _⟩
  · exact le_of_lt h
  · exact le_of_eq h

theorem tupLtb_fst_ge {x y : Int × String} (h : tupLtb x y = false) :
    y.1 ≤ x.1 := by
  simp only [tupLtb, Bool.or_eq_false_iff, Bool.and_eq_false_iff,
    decide_eq_false_iff_not] at h
  exact le_of_not_lt h.1

theorem findMin_mem : ∀ (ys : List (Int × String)) (m : Int × String),
    findMin ys m ∈ m :: ys := by
  intro ys
  induction ys with
  | nil => intro m; simp [findMin]
  | cons y ys ih =>
    intro m
    cases hb : tupLtb y m with
    | true =>
      have h := ih y
      simp only [findMin, hb, if_true]
      exact List.mem_cons_of_mem m h
    | false =>
      have h := ih m
      simp only [findMin, hb, Bool.false_eq_true, if_false]
      rcases List.mem_cons.mp h with h' | h'
      · rw [h']
        exact List.mem_cons_self _ _
      · exact List.mem_cons_of_mem m (List.mem_cons_of_mem y h')

theorem findMin_fst_le : ∀ (ys : List (Int × String)) (m : Int × String),
    (findMin ys m).1 ≤ m.1 ∧ ∀ y ∈ ys, (findMin ys m).1 ≤ y.1 := by
  intro ys
  induction ys with
  | nil => intro m; exact ⟨le_refl _, by simp⟩
  | cons y ys ih =>
    intro m
    cases hb : tupLtb y m with
    | true =>
      obtain ⟨h1, h2⟩ := ih y
      simp only [findMin, hb, if_true]
      refine ⟨h1.trans (tupLtb_fst_le hb), fun z hz => ?_⟩
      rcases List.mem_cons.mp hz with rfl | hz'
      · exact h1
      · exact h2 z hz'
    | false =>
      obtain ⟨h1, h2⟩ := ih m
      simp only [findMin, hb, Bool.false_eq_true, if_false]
      refine ⟨h1, fun z hz => ?_⟩
      rcases List.mem_cons.mp hz with rfl | hz'
      · exact h1.trans (tupLtb_fst_ge hb)
      · exact h2 z hz'

theorem eraseFirst_perm {l : List (Int × String)} {m : Int × String}
    (h : m ∈ l) : l.Perm (m :: eraseFirst l m) := by
  induction l with
  | nil => cases h
  | cons x xs ih =>
    by_cases hx : x = m
    · subst hx
      rw [eraseFirst, if_pos rfl]
    · rw [eraseFirst, if_neg hx]
      have hm : m ∈ xs := by
        rcases List.mem_cons.mp h with h' | h'
        · exact absurd h'.symm hx
        · exact h'
      exact ((ih hm).cons x).trans (List.Perm.swap m x _)

theorem eraseFirst_sublist : ∀ (l : List (Int × String)) (m : Int × String),
    (eraseFirst l m).Sublist l := by
  intro l
  induction l with
  | nil => intro m; simp [eraseFirst]
  | cons x xs ih =>
    intro m
    by_cases hx : x = m
    · rw [eraseFirst, if_pos hx]
      exact (List.Sublist.refl xs).cons x
    · rw [eraseFirst, if_neg hx]
      exact (ih m).cons₂ x

theorem popMin_eq_none {h : List (Int × String)} :
    popMin h = none ↔ h = [] := by
  cases h <;> simp [popMin]

theorem popMin_spec {l : List (Int × String)} {m : Int × String}
    {rest : List (Int × String)} (h : popMin l = some (m, rest)) :
    m ∈ l ∧ rest = eraseFirst l m ∧ ∀ y ∈ l, m.1 ≤ y.1 := by
  cases l with
  | nil => simp [popMin] at h
  | cons x xs =>
    simp only [popMin, Option.some_inj, Prod.mk.injEq] at h
    obtain ⟨h1, h2⟩ := h
    subst h1
    refine ⟨findMin_mem xs x, h2.symm, fun y hy => ?_⟩
    obtain ⟨ha, hb⟩ := findMin_fst_le xs x
    rcases List.mem_cons.mp hy with rfl | hy'
    · exact ha
    · exact hb y hy'

/-! Structure of the grouping fold. -/

theorem addToGroup_cons_ne {q : String × List α} {a : String}
    (g : List (String × List α)) (x : α) (hq : q.1 ≠ a) :
    addToGroup (q :: g) a x = q :: addToGroup g a x := by
  unfold addToGroup
  cases hb : g.any (fun p => p.1 == a) <;> simp [hq, hb]

theorem agGet_addToGroup_self (g : List (String × List α)) (a : String)
    (x : α) : agGet (addToGroup g a x) a = agGet g a ++ [x] := by
  induction g with
  | nil => simp [addToGroup, agGet]
  | cons q g ih =>
    by_cases hq : q.1 = a
    · have hq' : (q.1 == a) = true := beq_iff_eq.mpr hq
      unfold addToGroup
      rw [List.any_cons, hq', Bool.true_or, if_pos rfl, List.map_cons, hq',
        if_pos rfl]
      have hhead : agGet ((a, q.2 ++ [x]) ::
          g.map (fun p => if p.1 == a then (a, p.2 ++ [x]) else p)) a
          = q.2 ++ [x] := agGet_cons_self (a, q.2 ++ [x]) _
      rw [hhead, ← hq, agGet_cons_self]
    · rw [addToGroup_cons_ne g x hq, agGet_cons_of_ne q _ a hq,
        agGet_cons_of_ne q g a hq, ih]

theorem agGet_map_update_ne (g : List (String × List α)) (a b : String)
    (F : String × List α → List α) (hne : b ≠ a) :
    agGet (g.map (fun p => if p.1 == a then (a, F p) else p)) b =
      agGet g b := by
  induction g with
  | nil => rfl
  | cons q g ih =>
    rw [List.map_cons]
    by_cases hq : q.1 = a
    · rw [if_pos (beq_iff_eq.mpr hq),
        agGet_cons_of_ne (a, F q) _ b (fun h => hne h.symm),
        agGet_cons_of_ne q g b (fun h => hne (hq ▸ h).symm), ih]
    · rw [if_neg (by simpa using hq)]
      by_cases hqb : q.1 = b
      · rw [← hqb, agGet_cons_self, agGet_cons_self]
      · rw [agGet_cons_of_ne q _ b hqb, agGet_cons_of_ne q g b hqb, ih]

theorem agGet_append_single_ne (g : List (String × List α)) (a : String)
    (v : List α) (b : String) (hne : b ≠ a) :
    agGet (g ++ [(a, v)]) b = agGet g b := by
  induction g with
  | nil =>
    rw [List.nil_append, agGet_cons_of_ne (a, v) [] b (fun h => hne h.symm)]
  | cons q g ih =>
    by_cases hqb : q.1 = b
    · rw [List.cons_append, ← hqb, agGet_cons_self, agGet_cons_self]
    · rw [List.cons_append, agGet_cons_of_ne q _ b hqb,
        agGet_cons_of_ne q g b hqb, ih]

theorem agGet_addToGroup_ne (g : List (String × List α)) (a : String) (x : α)
    (b : String) (hne : b ≠ a) :
    agGet (addToGroup g a x) b = agGet g b := by
  unfold addToGroup
  cases hb : g.any (fun p => p.1 == a)
  · rw [if_neg (by simp [hb])]
    exact agGet_append_single_ne g a [x] b hne
  · rw [if_pos rfl]
    exact agGet_map_update_ne g a b (fun p => p.2 ++ [x]) hne

theorem map_update_keys (g : List (String × List α)) (a : String)
    (F : String × List α → List α) :
    (g.map (fun p => if p.1 == a then (a, F p) else p)).map Prod.fst =
      g.map Prod.fst := by
  induction g with
  | nil => rfl
  | cons q g ih =>
    rw [List.map_cons, List.map_cons, List.map_cons, ih]
    congr 1
    by_cases hq : q.1 = a
    · rw [if_pos (beq_iff_eq.mpr hq)]
      exact hq.symm
    · rw [if_neg (by simpa using hq)]

theorem addToGroup_keys (g : List (String × List α)) (a : String) (x : α) :
    (addToGroup g a x).map Prod.fst =
      if g.any (fun p => p.1 == a) then g.map Prod.fst
      else g.map Prod.fst ++ [a] := by
  by_cases hb : g.any (fun p => p.1 == a) = true
  · rw [addToGroup, if_pos hb, if_pos hb]
    exact map_update_keys g a (fun p => p.2 ++ [x])
  · rw [addToGroup, if_neg hb, if_neg hb]
    simp

theorem addToGroup_keys_nodup {g : List (String × List α)}
    (hnd : (g.map Prod.fst).Nodup) (a : String) (x : α) :
    ((addToGroup g a x).map Prod.fst).Nodup := by
  rw [addToGroup_keys]
  cases hb : g.any (fun p => p.1 == a)
  · rw [if_neg (by simp [hb])]
    have ha : a ∉ g.map Prod.fst := by
      intro hmem
      obtain ⟨p, hp, hpa⟩ := List.mem_map.mp hmem
      have : g.any (fun p => p.1 == a) = true :=
        List.any_eq_true.mpr ⟨p, hp, beq_iff_eq.mpr hpa⟩
      rw [hb] at this
      cases this
    simp [List.nodup_append, hnd, ha]
  · rw [if_pos rfl]
    exact hnd

theorem groupBy_keys_nodup (f : α → String) (xs : List α) :
    ((groupByArtist f xs).map Prod.fst).Nodup := by
  have main : ∀ (ys : List α) (g : List (String × List α)),
      (g.map Prod.fst).Nodup →
      ((ys.foldl (fun g x => addToGroup g (f x) x) g).map Prod.fst).Nodup := by
    intro ys
    induction ys with
    | nil => intro g hg; exact hg
    | cons x ys ih =>
      intro g hg
      exact ih _ (addToGroup_keys_nodup hg (f x) x)
  exact main xs [] List.nodup_nil

theorem addToGroup_snd_ne_nil {g : List (String × List α)}
    (hg : ∀ p ∈ g, p.2 ≠ []) (a : String) (x : α) :
    ∀ p ∈ addToGroup g a x, p.2 ≠ [] := by
  intro p hp
  by_cases hb : g.any (fun q => q.1 == a) = true
  · rw [addToGroup, if_pos hb] at hp
    obtain ⟨q, hq, hqe⟩ := List.mem_map.mp hp
    by_cases hqa : q.1 = a
    · rw [if_pos (beq_iff_eq.mpr hqa)] at hqe
      rw [← hqe]
      simp
    · rw [if_neg (by simpa using hqa)] at hqe
      exact hqe ▸ hg q hq
  · rw [addToGroup, if_neg hb] at hp
    rcases List.mem_append.mp hp with hp' | hp'
    · exact hg p hp'
    · rw [List.mem_singleton.mp hp']
      simp

theorem groupBy_snd_ne_nil (f : α → String) (xs : List α) :
    ∀ p ∈ groupByArtist f xs, p.2 ≠ [] := by
  have main : ∀ (ys : List α) (g : List (String × List α)),
      (∀ p ∈ g, p.2 ≠ []) →
      ∀ p ∈ ys.foldl (fun g x => addToGroup g (f x) x) g, p.2 ≠ [] := by
    intro ys
    induction ys with
    | nil => intro g hg; exact hg
    | cons x ys ih =>
      intro g hg
      exact ih _ (addToGroup_snd_ne_nil hg (f x) x)
  exact main xs [] (fun p hp => absurd hp (List.not_mem_nil p))

theorem agGet_groupBy (f : α → String) (xs : List α) (b : String) :
    agGet (groupByArtist f xs) b = xs.filter (fun x => f x == b) := by
  have main : ∀ (ys : List α) (g : List (String × List α)),
      agGet (ys.foldl (fun g x => addToGroup g (f x) x) g) b =
        agGet g b ++ ys.filter (fun x => f x == b) := by
    intro ys
    induction ys with
    | nil => intro g; simp
    | cons x ys ih =>
      intro g
      rw [List.foldl_cons, ih]
      by_cases hx : f x = b
      · rw [← hx, agGet_addToGroup_self]
        simp [List.filter_cons, hx, List.append_assoc]
      · rw [agGet_addToGroup_ne g (f x) x b (fun h => hx h.symm)]
        simp [List.filter_cons, hx]
  have := main xs []
  rw [groupByArtist, this, agGet_nil, List.nil_append]

theorem groupBy_artistOf (f : α → String) (xs : List α) :
    ∀ p ∈ groupByArtist f xs, ∀ x ∈ p.2, f x = p.1 := by
  intro p hp x hx
  have hget := agGet_of_mem (groupBy_keys_nodup f xs) hp
  rw [agGet_groupBy] at hget
  have hmem : x ∈ xs.filter (fun y => f y == p.1) := hget ▸ hx
  have := (List.mem_filter.mp hmem).2
  exact beq_iff_eq.mp this

/-! Splitting a grouping at a key, and updating it there. -/

theorem exists_split_of_any {g : List (String × List α)} {a : String}
    (hnd : (g.map Prod.fst).Nodup) (h : g.any (fun p => p.1 == a) = true) :
    ∃ g₁ l g₂, g = g₁ ++ (a, l) :: g₂
      ∧ (∀ p ∈ g₁, p.1 ≠ a) ∧ (∀ p ∈ g₂, p.1 ≠ a) := by
  induction g with
  | nil => cases h
  | cons q g ih =>
    by_cases hq : q.1 = a
    · refine ⟨[], q.2, g, by simp [← hq], by simp, ?_⟩
      intro p hp hpa
      exact (List.nodup_cons.mp hnd).1
        (hq ▸ hpa ▸ List.mem_map_of_mem Prod.fst hp)
    · have h' : g.any (fun p => p.1 == a) = true := by
        rcases List.any_eq_true.mp h with ⟨p, hp, hpa⟩
        rcases List.mem_cons.mp hp with rfl | hp'
        · exact absurd (beq_iff_eq.mp hpa) hq
        · exact List.any_eq_true.mpr ⟨p, hp', hpa⟩
      obtain ⟨g₁, l, g₂, hsplit, h₁, h₂⟩ := ih (List.nodup_cons.mp hnd).2 h'
      exact ⟨q :: g₁, l, g₂, by rw [hsplit]; rfl,
        fun p hp => by
          rcases List.mem_cons.mp hp with rfl | hp'
          · exact hq
          · exact h₁ p hp', h₂⟩

theorem map_update_split (g₁ : List (String × List α)) (a : String)
    (l : List α) (g₂ : List (String × List α))
    (F : String × List α → List α)
    (h₁ : ∀ p ∈ g₁, p.1 ≠ a) (h₂ : ∀ p ∈ g₂, p.1 ≠ a) :
    (g₁ ++ (a, l) :: g₂).map (fun p => if p.1 == a then (a, F p) else p) =
      g₁ ++ (a, F (a, l)) :: g₂ := by
  rw [List.map_append, List.map_cons]
  have e₁ : g₁.map (fun p => if p.1 == a then (a, F p) else p) = g₁ :=
    map_id_of_eq (fun p hp => by simp [h₁ p hp])
  have e₂ : g₂.map (fun p => if p.1 == a then (a, F p) else p) = g₂ :=
    map_id_of_eq (fun p hp => by simp [h₂ p hp])
  rw [e₁, e₂]
  simp

/-! `maxFreq` facts. -/

theorem le_foldr_max {l : List Nat} {x : Nat} (h : x ∈ l) :
    x ≤ l.foldr max 0 := by
  induction l with
  | nil => cases h
  | cons y ys ih =>
    rcases List.mem_cons.mp h with rfl | h'
    · exact le_max_left _ _
    · exact (ih h').trans (le_max_right _ _)

theorem foldr_max_le {l : List Nat} {b : Nat} (h : ∀ x ∈ l, x ≤ b) :
    l.foldr max 0 ≤ b := by
  induction l with
  | nil => exact Nat.zero_le b
  | cons y ys ih =>
    exact max_le (h y (List.mem_cons_self y ys))
      (ih (fun x hx => h x (List.mem_cons_of_mem y hx)))

theorem foldr_max_zero_or_mem (l : List Nat) :
    l.foldr max 0 = 0 ∨ l.foldr max 0 ∈ l := by
  induction l with
  | nil => exact Or.inl rfl
  | cons y ys ih =>
    rw [List.foldr_cons]
    rcases max_choice y (ys.foldr max 0) with h | h
    · rw [h]
      exact Or.inr (List.mem_cons_self y ys)
    · rw [h]
      rcases ih with h0 | hm
      · rw [h0]
        exact Or.inl rfl
      · exact Or.inr (List.mem_cons_of_mem y hm)

theorem length_le_maxFreq {g : List (String × List α)} {p : String × List α}
    (hp : p ∈ g) : p.2.length ≤ maxFreq g :=
  le_foldr_max (List.mem_map_of_mem (fun q => q.2.length) hp)

theorem maxFreq_le_agTotal (g : List (String × List α)) :
    maxFreq g ≤ agTotal g :=
  foldr_max_le (fun x hx => by
    obtain ⟨p, hp, hpx⟩ := List.mem_map.mp hx
    exact hpx ▸ length_le_agTotal hp)

theorem maxFreq_zero_or_attained (g : List (String × List α)) :
    maxFreq g = 0 ∨ ∃ p ∈ g, p.2.length = maxFreq g := by
  rcases foldr_max_zero_or_mem (g.map (fun p => p.2.length)) with h | h
  · exact Or.inl h
  · obtain ⟨p, hp, hpx⟩ := List.mem_map.mp h
    exact Or.inr ⟨p, hp, hpx⟩

theorem agTotal_eq_join_length (g : List (String × List α)) :
    (g.map Prod.snd).join.length = agTotal g := by
  simp only [agTotal, List.length_join, List.map_map]
  rfl

theorem exists_mem_of_agGet_ne_nil {g : List (String × List α)} {b : String}
    (h : agGet g b ≠ []) : ∃ p ∈ g, p.1 = b ∧ p.2 = agGet g b := by
  cases hf : g.find? (fun p => p.1 == b) with
  | none =>
    exfalso
    apply h
    unfold agGet
    rw [hf]
    rfl
  | some p =>
    have hpred : (p.1 == b) = true := by
      have := List.find?_some hf
      simpa using this
    refine ⟨p, List.mem_of_find?_eq_some hf, beq_iff_eq.mp hpred, ?_⟩
    unfold agGet
    rw [hf]
    rfl

theorem agGet_split_other (g₁ : List (String × List α)) (a : String)
    (v w : List α) (g₂ : List (String × List α)) (b : String) (hb : b ≠ a) :
    agGet (g₁ ++ (a, v) :: g₂) b = agGet (g₁ ++ (a, w) :: g₂) b := by
  induction g₁ with
  | nil =>
    rw [List.nil_append, List.nil_append,
      agGet_cons_of_ne (a, v) g₂ b (fun h => hb h.symm),
      agGet_cons_of_ne (a, w) g₂ b (fun h => hb h.symm)]
  | cons q g₁ ih =>
    by_cases hqb : q.1 = b
    · rw [List.cons_append, List.cons_append, ← hqb, agGet_cons_self,
        agGet_cons_self]
    · rw [List.cons_append, List.cons_append, agGet_cons_of_ne q _ b hqb,
        agGet_cons_of_ne q _ b hqb, ih]

theorem agTotal_eq_zero_of_all_nil {g : List (String × List α)}
    (h : ∀ p ∈ g, p.2 = []) : agTotal g = 0 := by
  refine List.sum_eq_zero (fun x hx => ?_)
  obtain ⟨p, hp, hpx⟩ := List.mem_map.mp hx
  rw [← hpx, h p hp]
  rfl

theorem join_addToGroup_perm {g : List (String × List α)}
    (hnd : (g.map Prod.fst).Nodup) (a : String) (x : α) :
    ((addToGroup g a x).map Prod.snd).join.Perm
      ((g.map Prod.snd).join ++ [x]) := by
  by_cases hb : g.any (fun p => p.1 == a) = true
  · obtain ⟨g₁, l, g₂, hsplit, h₁, h₂⟩ := exists_split_of_any hnd hb
    subst hsplit
    rw [addToGroup, if_pos hb,
      map_update_split g₁ a l g₂ (fun p => p.2 ++ [x]) h₁ h₂]
    simp only [List.map_append, List.map_cons, List.join_append,
      List.join_cons]
    have e1 : (g₁.map Prod.snd).join ++ ((l ++ [x]) ++ (g₂.map Prod.snd).join)
        = ((g₁.map Prod.snd).join ++ l) ++ (x :: (g₂.map Prod.snd).join) := by
      simp [List.append_assoc]
    have e2 : ((g₁.map Prod.snd).join ++ (l ++ (g₂.map Prod.snd).join)) ++ [x]
        = (((g₁.map Prod.snd).join ++ l) ++ (g₂.map Prod.snd).join) ++ [x] := by
      simp [List.append_assoc]
    rw [e1, e2]
    exact List.perm_middle.trans (List.perm_append_singleton x _).symm
  · rw [addToGroup, if_neg hb]
    have heq : ((g ++ [(a, [x])]).map Prod.snd).join
        = (g.map Prod.snd).join ++ [x] := by simp
    rw [heq]

theorem join_groupBy_perm (f : α → String) (xs : List α) :
    ((groupByArtist f xs).map Prod.snd).join.Perm xs := by
  have main : ∀ (ys : List α) (g : List (String × List α)),
      (g.map Prod.fst).Nodup →
      ((ys.foldl (fun g x => addToGroup g (f x) x) g).map Prod.snd).join.Perm
        ((g.map Prod.snd).join ++ ys) := by
    intro ys
    induction ys with
    | nil =>
      intro g _
      rw [List.foldl_nil, List.append_nil]
    | cons x ys ih =>
      intro g hg
      rw [List.foldl_cons]
      refine (ih (addToGroup g (f x) x) (addToGroup_keys_nodup hg (f x) x)).trans
        ?_
      refine ((join_addToGroup_perm hg (f x) x).append_right ys).trans ?_
      rw [List.append_assoc, List.singleton_append]
  have h := main xs [] List.nodup_nil
  simpa using h

/-- One unfolding of the interleaving loop. -/
theorem interleave_succ (artistOf : α → String) (fuel : Nat)
    (heap : List (Int × String)) (g : List (String × List α))
    (prev : Option (Int × String)) (acc : List α) :
    interleave artistOf (fuel + 1) heap g prev acc =
      match popMin heap with
      | none => Except.ok acc
      | some ((count, artist), rest) =>
        match (agGet g artist).getLast? with
        | none => Except.error "IndexError: pop from empty list"
        | some node =>
          interleave artistOf fuel
            (match prev with | some pr => pr :: rest | none => rest)
            (agSet g artist (agGet g artist).dropLast)
            (if (agGet (agSet g artist (agGet g artist).dropLast)
                artist).isEmpty then none
             else some (count + 1, artist))
            (acc ++ [node]) := rfl

/-- Moving an element appended to the accumulator back into the middle of the
not-yet-emitted elements is a permutation. -/
theorem perm_reinsert_last (A J1 D J2 : List α) (n : α) :
    ((A ++ [n]) ++ (J1 ++ (D ++ J2))).Perm (A ++ (J1 ++ ((D ++ [n]) ++ J2)))
    := by
  have e1 : (A ++ [n]) ++ (J1 ++ (D ++ J2))
      = A ++ (n :: ((J1 ++ D) ++ J2)) := by
    simp [List.append_assoc]
  have e2 : A ++ (J1 ++ ((D ++ [n]) ++ J2))
      = A ++ ((J1 ++ D) ++ (n :: J2)) := by
    simp [List.append_assoc]
  rw [e1, e2]
  exact List.Perm.append_left A List.perm_middle.symm

/-- Correctness of the interleaving loop: under the loop invariant and with
fuel at least the number of remaining elements, the loop completes, emits a
permutation of the accumulated and remaining elements, and never emits two
adjacent elements with the same artist. -/
theorem interleave_ok (artistOf : α → String) : ∀ (fuel : Nat)
    (heap : List (Int × String)) (g : List (String × List α))
    (prev : Option (Int × String)) (acc : List α),
    InterleaveInv artistOf heap g prev acc → agTotal g ≤ fuel →
    ∃ out, interleave artistOf fuel heap g prev acc = Except.ok out
      ∧ out.Perm (acc ++ (g.map Prod.snd).join)
      ∧ List.Chain' (fun x y => artistOf x ≠ artistOf y) out := by
  intro fuel
  induction fuel with
  | zero =>
    intro heap g prev acc hInv hfuel
    obtain ⟨hnd, hhnd, hok, hprevne, hprevok, hexh, hart, hF1, hF2, hlast,
      hchain⟩ := hInv
    have htot : agTotal g = 0 := Nat.le_zero.mp hfuel
    have hgetnil : ∀ b, agGet g b = [] := by
      intro b
      by_contra hne
      obtain ⟨p, hp, hpk, hpv⟩ := exists_mem_of_agGet_ne_nil hne
      have hlen := length_le_agTotal hp
      have hz : p.2 = [] := List.length_eq_zero.mp (by omega)
      rw [hpv] at hz
      exact hne hz
    have hheap : heap = [] := by
      cases heap with
      | nil => rfl
      | cons e hs =>
        exact absurd (hgetnil e.2) (hok e (List.mem_cons_self e hs)).2
    subst hheap
    have hjoin : (g.map Prod.snd).join = [] := by
      have hl := agTotal_eq_join_length g
      rw [htot] at hl
      exact List.length_eq_zero.mp hl
    refine ⟨acc, by simp [interleave], ?_, hchain⟩
    rw [hjoin, List.append_nil]
  | succ fuel ih =>
    intro heap g prev acc hInv hfuel
    obtain ⟨hnd, hhnd, hok, hprevne, hprevok, hexh, hart, hF1, hF2, hlast,
      hchain⟩ := hInv
    cases hpop : popMin heap with
    | none =>
      have hheap : heap = [] := popMin_eq_none.mp hpop
      subst hheap
      have hallnil : ∀ p ∈ g, p.2 = [] := by
        cases prev with
        | some pr =>
          exfalso
          have hprOK : HeapEntryOK g pr := hprevok pr rfl
          have hF2pr : 2 * (agGet g pr.2).length ≤ agTotal g := hF2 pr rfl
          have hothers : ∀ p ∈ g, p.1 ≠ pr.2 → p.2 = [] := by
            intro p hp hne
            have h := hexh p.1 (fun e he => absurd he (List.not_mem_nil e))
              (fun pr' hpr' => by
                rw [← Option.some_inj.mp hpr']
                exact fun hEq => hne hEq.symm)
            rw [agGet_of_mem hnd hp] at h
            exact h
          have hprne : agGet g pr.2 ≠ [] := hprOK.2
          obtain ⟨g₁, l, g₂, hsplit, hget, hk₁, hk₂⟩ :=
            exists_split_of_agGet_ne_nil hnd hprne
          have ht1 : agTotal g₁ = 0 := agTotal_eq_zero_of_all_nil
            (fun p hp => hothers p
              (by rw [hsplit]; exact List.mem_append_left _ hp) (hk₁ p hp))
          have ht2 : agTotal g₂ = 0 := agTotal_eq_zero_of_all_nil
            (fun p hp => hothers p
              (by rw [hsplit]
                  exact List.mem_append_right _ (List.mem_cons_of_mem _ hp))
              (hk₂ p hp))
          have htotg : agTotal g = l.length := by
            rw [hsplit, agTotal_append, agTotal_cons, ht1, ht2]
            simp
          have hlpos : 0 < l.length :=
            List.length_pos.mpr (hget ▸ hprne)
          rw [hget] at hF2pr
          omega
        | none =>
          intro p hp
          have h := hexh p.1 (fun e he => absurd he (List.not_mem_nil e))
            (fun pr' hpr' => Option.noConfusion hpr')
          rw [agGet_of_mem hnd hp] at h
          exact h
      have hjoin : (g.map Prod.snd).join = [] := by
        have hl := agTotal_eq_join_length g
        rw [agTotal_eq_zero_of_all_nil hallnil] at hl
        exact List.length_eq_zero.mp hl
      refine ⟨acc, ?_, ?_, hchain⟩
      · rw [interleave_succ, hpop]
      · rw [hjoin, List.append_nil]
    | some mr =>
      obtain ⟨⟨count, artist⟩, rest⟩ := mr
      obtain ⟨hmem, hrest, hmin⟩ := popMin_spec hpop
      have hcount : count = -((agGet g artist).length : Int) := (hok _ hmem).1
      have hgne : agGet g artist ≠ [] := (hok _ hmem).2
      obtain ⟨g₁, l, g₂, hsplit, hget, hk₁, hk₂⟩ :=
        exists_split_of_agGet_ne_nil hnd hgne
      have hlne : l ≠ [] := hget ▸ hgne
      have hlpos : 0 < l.length := List.length_pos.mpr hlne
      have hc : count = -(l.length : Int) := by rw [hcount, hget]
      obtain ⟨node, hnode⟩ : ∃ node, l.getLast? = some node := by
        cases hl : l.getLast? with
        | none => exact absurd (List.getLast?_eq_none.mp hl) hlne
        | some node => exact ⟨node, rfl⟩
      have hnodelast : l.dropLast ++ [node] = l := by
        have h1 := List.getLast?_eq_getLast l hlne
        rw [h1] at hnode
        have h2 : l.getLast hlne = node := Option.some_inj.mp hnode
        rw [← h2]
        exact List.dropLast_append_getLast hlne
      have hnodemem : node ∈ l := by
        rw [← hnodelast]
        exact List.mem_append_right _ (List.mem_singleton.mpr rfl)
      have hmidmem : ((artist, l) : String × List α) ∈ g := by
        rw [hsplit]
        exact List.mem_append_right _ (List.mem_cons_self _ _)
      have hartnode : artistOf node = artist :=
        hart (artist, l) hmidmem node hnodemem
      have hrestsub : rest.Sublist heap := by
        rw [hrest]
        exact eraseFirst_sublist heap _
      have hrestmem : ∀ e ∈ rest, e ∈ heap := fun e he => hrestsub.subset he
      have hheapperm : heap.Perm ((count, artist) :: rest) := by
        rw [hrest]
        exact eraseFirst_perm hmem
      have hsndnd2 : (artist :: rest.map Prod.snd).Nodup := by
        have h := ((hheapperm.map Prod.snd).nodup_iff).mp hhnd
        simpa using h
      have hartnotrest : ∀ e ∈ rest, e.2 ≠ artist := by
        intro e he hea
        exact (List.nodup_cons.mp hsndnd2).1
          (hea ▸ List.mem_map_of_mem Prod.snd he)
      have hrestsnd : (rest.map Prod.snd).Nodup := (List.nodup_cons.mp hsndnd2).2
      have hprevnot : ∀ pr ∈ prev, pr.2 ≠ artist := fun pr hpr =>
        hprevne _ hmem pr hpr
      have hmaxcount : ∀ e ∈ rest, (agGet g e.2).length ≤ l.length := by
        intro e he
        have h3 : count ≤ e.1 := hmin e (hrestmem e he)
        have h2 : e.1 = -((agGet g e.2).length : Int) := (hok e (hrestmem e he)).1
        rw [hc, h2] at h3
        omega
      have hsumpair : ∀ e ∈ rest, (agGet g e.2).length + l.length ≤ agTotal g
          := by
        intro e he
        have hene : agGet g e.2 ≠ [] := (hok e (hrestmem e he)).2
        obtain ⟨p, hp, hpk, hpv⟩ := exists_mem_of_agGet_ne_nil hene
        have hpne : p.1 ≠ artist := by
          rw [hpk]
          exact hartnotrest e he
        have hppart : p ∈ g₁ ∨ p ∈ g₂ := by
          rw [hsplit] at hp
          rcases List.mem_append.mp hp with h | h
          · exact Or.inl h
          · rcases List.mem_cons.mp h with hpe | h'
            · exfalso
              apply hpne
              rw [hpe]
            · exact Or.inr h'
        have htotsplit : agTotal g = agTotal g₁ + (l.length + agTotal g₂) := by
          rw [hsplit, agTotal_append, agTotal_cons]
        have hplen : p.2.length = (agGet g e.2).length := by rw [hpv]
        rcases hppart with h | h
        · have := length_le_agTotal h
          omega
        · have := length_le_agTotal h
          omega
      have htotsplit : agTotal g = agTotal g₁ + (l.length + agTotal g₂) := by
        rw [hsplit, agTotal_append, agTotal_cons]
      have hg' : agSet g artist l.dropLast = g₁ ++ (artist, l.dropLast) :: g₂
          := by
        rw [hsplit]
        exact agSet_split g₁ artist l g₂ l.dropLast hk₁ hk₂
      have hgee : agGet (g₁ ++ (artist, l.dropLast) :: g₂) artist = l.dropLast
          := by
        rw [agGet_append_of_ne g₁ _ artist hk₁]
        exact agGet_cons_self (artist, l.dropLast) g₂
      have hgene : ∀ b, b ≠ artist →
          agGet (g₁ ++ (artist, l.dropLast) :: g₂) b = agGet g b := by
        intro b hb
        rw [agGet_split_other g₁ artist l.dropLast l g₂ b hb, ← hsplit]
      have hkeys' : (g₁ ++ (artist, l.dropLast) :: g₂).map Prod.fst
          = g.map Prod.fst := by
        rw [hsplit]
        simp
      have hnd' : ((g₁ ++ (artist, l.dropLast) :: g₂).map Prod.fst).Nodup := by
        rw [hkeys']
        exact hnd
      have htot' : agTotal (g₁ ++ (artist, l.dropLast) :: g₂) = agTotal g - 1
          := by
        rw [agTotal_append, agTotal_cons, List.length_dropLast]
        omega
      have hart' : ∀ p ∈ g₁ ++ (artist, l.dropLast) :: g₂, ∀ x ∈ p.2,
          artistOf x = p.1 := by
        intro p hp x hx
        rcases List.mem_append.mp hp with h | h
        · exact hart p (by rw [hsplit]; exact List.mem_append_left _ h) x hx
        · rcases List.mem_cons.mp h with hpe | h'
          · rw [hpe] at hx ⊢
            exact hart (artist, l) hmidmem x ((List.dropLast_sublist l).subset hx)
          · exact hart p
              (by rw [hsplit]
                  exact List.mem_append_right _ (List.mem_cons_of_mem _ h'))
              x hx
      have hokrest : ∀ e ∈ rest,
          HeapEntryOK (g₁ ++ (artist, l.dropLast) :: g₂) e := by
        intro e he
        have h1 := hok e (hrestmem e he)
        exact ⟨by rw [hgene e.2 (hartnotrest e he)]; exact h1.1,
          by rw [hgene e.2 (hartnotrest e he)]; exact h1.2⟩
      have hF1rest : ∀ e ∈ rest,
          2 * (agGet (g₁ ++ (artist, l.dropLast) :: g₂) e.2).length
            ≤ agTotal (g₁ ++ (artist, l.dropLast) :: g₂) + 1 := by
        intro e he
        rw [hgene e.2 (hartnotrest e he), htot']
        have h1 := hmaxcount e he
        have h2 := hsumpair e he
        omega
      have hlastnew : (acc ++ [node]).getLast? = some node := by simp
      have hchainnew : List.Chain' (fun x y => artistOf x ≠ artistOf y)
          (acc ++ [node]) := by
        rw [List.chain'_append]
        refine ⟨hchain, List.chain'_singleton node, ?_⟩
        intro x hx y hy
        have hyn : node = y := by simpa using hy
        have h1 : artistOf x ≠ artist := hlast (count, artist) hmem x hx
        rw [← hyn, hartnode]
        exact h1
      have hlastrest : ∀ e ∈ rest, ∀ x ∈ (acc ++ [node]).getLast?,
          artistOf x ≠ e.2 := by
        intro e he x hx
        rw [hlastnew] at hx
        have hxn : node = x := by simpa using hx
        rw [← hxn, hartnode]
        exact fun h => hartnotrest e he h.symm
      have hfuel' : agTotal (g₁ ++ (artist, l.dropLast) :: g₂) ≤ fuel := by
        rw [htot']
        omega
      have hexh_core : ∀ a, a ≠ artist → (∀ e ∈ rest, e.2 ≠ a) →
          (∀ pr ∈ prev, pr.2 ≠ a) →
          agGet (g₁ ++ (artist, l.dropLast) :: g₂) a = [] := by
        intro a ha hr hp
        rw [hgene a ha]
        refine hexh a ?_ hp
        intro e he
        rcases List.mem_cons.mp (hheapperm.mem_iff.mp he) with hee | h'
        · rw [hee]
          exact fun h => ha h.symm
        · exact hr e h'
      have hpermgoal : ∀ out : List α,
          out.Perm ((acc ++ [node])
            ++ ((g₁ ++ (artist, l.dropLast) :: g₂).map Prod.snd).join) →
          out.Perm (acc ++ (g.map Prod.snd).join) := by
        intro out hperm
        refine hperm.trans ?_
        have hJ' : ((g₁ ++ (artist, l.dropLast) :: g₂).map Prod.snd).join
            = (g₁.map Prod.snd).join
              ++ (l.dropLast ++ (g₂.map Prod.snd).join) := by simp
        have hJ : (g.map Prod.snd).join
            = (g₁.map Prod.snd).join ++ (l ++ (g₂.map Prod.snd).join) := by
          rw [hsplit]
          simp
        rw [hJ', hJ]
        have h0 := perm_reinsert_last acc (g₁.map Prod.snd).join l.dropLast
          (g₂.map Prod.snd).join node
        rw [hnodelast] at h0
        exact h0
      cases prev with
      | none =>
        by_cases hdrop : (l.dropLast).isEmpty = true
        · have hdropnil : l.dropLast = [] := by simpa using hdrop
          have hInv' : InterleaveInv artistOf rest
              (g₁ ++ (artist, l.dropLast) :: g₂) none (acc ++ [node]) := by
            refine ⟨hnd', hrestsnd, hokrest,
              fun e he pr hpr => Option.noConfusion hpr,
              fun pr hpr => Option.noConfusion hpr, ?_, hart', hF1rest,
              fun pr hpr => Option.noConfusion hpr, hlastrest, hchainnew⟩
            intro a hr hp
            by_cases ha : a = artist
            · rw [ha, hgee, hdropnil]
            · exact hexh_core a ha hr (fun pr hpr => Option.noConfusion hpr)
          obtain ⟨out, hrun, hperm, hch⟩ := ih rest
            (g₁ ++ (artist, l.dropLast) :: g₂) none (acc ++ [node]) hInv' hfuel'
          refine ⟨out, ?_, hpermgoal out hperm, hch⟩
          rw [interleave_succ, hpop]
          show (match (agGet g artist).getLast? with
            | none =>
              (Except.error "IndexError: pop from empty list"
                : Except String (List α))
            | some node => interleave artistOf fuel rest
                (agSet g artist (agGet g artist).dropLast)
                (if (agGet (agSet g artist (agGet g artist).dropLast)
                    artist).isEmpty then none
                 else some (count + 1, artist))
                (acc ++ [node])) = Except.ok out
          rw [hget, hnode]
          show interleave artistOf fuel rest (agSet g artist l.dropLast)
            (if (agGet (agSet g artist l.dropLast) artist).isEmpty then none
             else some (count + 1, artist)) (acc ++ [node]) = Except.ok out
          rw [hg', hgee, if_pos hdrop]
          exact hrun
        · have hdropne : l.dropLast ≠ [] := by
            intro h
            exact hdrop (by rw [h]; rfl)
          have hInv' : InterleaveInv artistOf rest
              (g₁ ++ (artist, l.dropLast) :: g₂) (some (count + 1, artist))
              (acc ++ [node]) := by
            refine ⟨hnd', hrestsnd, hokrest, ?_, ?_, ?_, hart', hF1rest, ?_,
              hlastrest, hchainnew⟩
            · intro e he pr hpr
              rw [← Option.some_inj.mp hpr]
              exact fun h => hartnotrest e he h.symm
            · intro pr hpr
              rw [← Option.some_inj.mp hpr]
              refine ⟨?_, ?_⟩
              · show count + 1 =
                  -(((agGet (g₁ ++ (artist, l.dropLast) :: g₂)
                    artist).length : Int))
                rw [hgee, List.length_dropLast]
                omega
              · show agGet (g₁ ++ (artist, l.dropLast) :: g₂) artist ≠ []
                rw [hgee]
                exact hdropne
            · intro a hr hp
              by_cases ha : a = artist
              · exact absurd ha.symm (hp (count + 1, artist) rfl)
              · exact hexh_core a ha hr (fun pr hpr => Option.noConfusion hpr)
            · intro pr hpr
              rw [← Option.some_inj.mp hpr]
              show 2 * (agGet (g₁ ++ (artist, l.dropLast) :: g₂)
                  artist).length
                ≤ agTotal (g₁ ++ (artist, l.dropLast) :: g₂)
              rw [hgee, List.length_dropLast, htot']
              have hF1a : 2 * (agGet g artist).length ≤ agTotal g + 1 :=
                hF1 _ hmem
              rw [hget] at hF1a
              omega
          obtain ⟨out, hrun, hperm, hch⟩ := ih rest
            (g₁ ++ (artist, l.dropLast) :: g₂) (some (count + 1, artist))
            (acc ++ [node]) hInv' hfuel'
          refine ⟨out, ?_, hpermgoal out hperm, hch⟩
          rw [interleave_succ, hpop]
          show (match (agGet g artist).getLast? with
            | none =>
              (Except.error "IndexError: pop from empty list"
                : Except String (List α))
            | some node => interleave artistOf fuel rest
                (agSet g artist (agGet g artist).dropLast)
                (if (agGet (agSet g artist (agGet g artist).dropLast)
                    artist).isEmpty then none
                 else some (count + 1, artist))
                (acc ++ [node])) = Except.ok out
          rw [hget, hnode]
          show interleave artistOf fuel rest (agSet g artist l.dropLast)
            (if (agGet (agSet g artist l.dropLast) artist).isEmpty then none
             else some (count + 1, artist)) (acc ++ [node]) = Except.ok out
          rw [hg', hgee, if_neg hdrop]
          exact hrun
      | some pr =>
        have hprOK : HeapEntryOK g pr := hprevok pr rfl
        have hF2pr : 2 * (agGet g pr.2).length ≤ agTotal g := hF2 pr rfl
        have hprart : pr.2 ≠ artist := hprevnot pr rfl
        have hprnotrest : ∀ e ∈ rest, pr.2 ≠ e.2 := fun e he =>
          hprevne e (hrestmem e he) pr rfl
        have hsnd' : ((pr :: rest).map Prod.snd).Nodup := by
          rw [List.map_cons]
          refine List.nodup_cons.mpr ⟨?_, hrestsnd⟩
          intro hmem2
          obtain ⟨e, he, hee⟩ := List.mem_map.mp hmem2
          exact hprnotrest e he hee.symm
        have hokheap' : ∀ e ∈ pr :: rest,
            HeapEntryOK (g₁ ++ (artist, l.dropLast) :: g₂) e := by
          intro e he
          rcases List.mem_cons.mp he with hee | h'
          · rw [hee]
            exact ⟨by rw [hgene pr.2 hprart]; exact hprOK.1,
              by rw [hgene pr.2 hprart]; exact hprOK.2⟩
          · exact hokrest e h'
        have hF1heap' : ∀ e ∈ pr :: rest,
            2 * (agGet (g₁ ++ (artist, l.dropLast) :: g₂) e.2).length
              ≤ agTotal (g₁ ++ (artist, l.dropLast) :: g₂) + 1 := by
          intro e he
          rcases List.mem_cons.mp he with hee | h'
          · rw [hee, hgene pr.2 hprart, htot']
            omega
          · exact hF1rest e h'
        have hlastheap' : ∀ e ∈ pr :: rest,
            ∀ x ∈ (acc ++ [node]).getLast?, artistOf x ≠ e.2 := by
          intro e he x hx
          rcases List.mem_cons.mp he with hee | h'
          · rw [hlastnew] at hx
            have hxn : node = x := by simpa using hx
            rw [← hxn, hartnode, hee]
            exact fun h => hprart h.symm
          · exact hlastrest e h' x hx
        have hexh_some : ∀ a, a ≠ artist → (∀ e ∈ pr :: rest, e.2 ≠ a) →
            agGet (g₁ ++ (artist, l.dropLast) :: g₂) a = [] := by
          intro a ha hr
          refine hexh_core a ha (fun e he => hr e (List.mem_cons_of_mem pr he))
            ?_
          intro pr' hpr'
          rw [← Option.some_inj.mp hpr']
          exact hr pr (List.mem_cons_self pr rest)
        by_cases hdrop : (l.dropLast).isEmpty = true
        · have hdropnil : l.dropLast = [] := by simpa using hdrop
          have hInv' : InterleaveInv artistOf (pr :: rest)
              (g₁ ++ (artist, l.dropLast) :: g₂) none (acc ++ [node]) := by
            refine ⟨hnd', hsnd', hokheap',
              fun e he pr' hpr' => Option.noConfusion hpr',
              fun pr' hpr' => Option.noConfusion hpr', ?_, hart', hF1heap',
              fun pr' hpr' => Option.noConfusion hpr', hlastheap', hchainnew⟩
            intro a hr hp
            by_cases ha : a = artist
            · rw [ha, hgee, hdropnil]
            · exact hexh_some a ha hr
          obtain ⟨out, hrun, hperm, hch⟩ := ih (pr :: rest)
            (g₁ ++ (artist, l.dropLast) :: g₂) none (acc ++ [node]) hInv'
            hfuel'
          refine ⟨out, ?_, hpermgoal out hperm, hch⟩
          rw [interleave_succ, hpop]
          show (match (agGet g artist).getLast? with
            | none =>
              (Except.error "IndexError: pop from empty list"
                : Except String (List α))
            | some node => interleave artistOf fuel (pr :: rest)
                (agSet g artist (agGet g artist).dropLast)
                (if (agGet (agSet g artist (agGet g artist).dropLast)
                    artist).isEmpty then none
                 else some (count + 1, artist))
                (acc ++ [node])) = Except.ok out
          rw [hget, hnode]
          show interleave artistOf fuel (pr :: rest)
            (agSet g artist l.dropLast)
            (if (agGet (agSet g artist l.dropLast) artist).isEmpty then none
             else some (count + 1, artist)) (acc ++ [node]) = Except.ok out
          rw [hg', hgee, if_pos hdrop]
          exact hrun
        · have hdropne : l.dropLast ≠ [] := by
            intro h
            exact hdrop (by rw [h]; rfl)
          have hInv' : InterleaveInv artistOf (pr :: rest)
              (g₁ ++ (artist, l.dropLast) :: g₂) (some (count + 1, artist))
              (acc ++ [node]) := by
            refine ⟨hnd', hsnd', hokheap', ?_, ?_, ?_, hart', hF1heap', ?_,
              hlastheap', hchainnew⟩
            · intro e he pr' hpr'
              rw [← Option.some_inj.mp hpr']
              rcases List.mem_cons.mp he with hee | h'
              · rw [hee]
                exact fun h => hprart h.symm
              · exact fun h => hartnotrest e h' h.symm
            · intro pr' hpr'
              rw [← Option.some_inj.mp hpr']
              refine ⟨?_, ?_⟩
              · show count + 1 =
                  -(((agGet (g₁ ++ (artist, l.dropLast) :: g₂)
                    artist).length : Int))
                rw [hgee, List.length_dropLast]
                omega
              · show agGet (g₁ ++ (artist, l.dropLast) :: g₂) artist ≠ []
                rw [hgee]
                exact hdropne
            · intro a hr hp
              by_cases ha : a = artist
              · exact absurd ha.symm (hp (count + 1, artist) rfl)
              · exact hexh_some a ha hr
            · intro pr' hpr'
              rw [← Option.some_inj.mp hpr']
              show 2 * (agGet (g₁ ++ (artist, l.dropLast) :: g₂)
                  artist).length
                ≤ agTotal (g₁ ++ (artist, l.dropLast) :: g₂)
              rw [hgee, List.length_dropLast, htot']
              have hF1a : 2 * (agGet g artist).length ≤ agTotal g + 1 :=
                hF1 _ hmem
              rw [hget] at hF1a
              omega
          obtain ⟨out, hrun, hperm, hch⟩ := ih (pr :: rest)
            (g₁ ++ (artist, l.dropLast) :: g₂) (some (count + 1, artist))
            (acc ++ [node]) hInv' hfuel'
          refine ⟨out, ?_, hpermgoal out hperm, hch⟩
          rw [interleave_succ, hpop]
          show (match (agGet g artist).getLast? with
            | none =>
              (Except.error "IndexError: pop from empty list"
                : Except String (List α))
            | some node => interleave artistOf fuel (pr :: rest)
                (agSet g artist (agGet g artist).dropLast)
                (if (agGet (agSet g artist (agGet g artist).dropLast)
                    artist).isEmpty then none
                 else some (count + 1, artist))
                (acc ++ [node])) = Except.ok out
          rw [hget, hnode]
          show interleave artistOf fuel (pr :: rest)
            (agSet g artist l.dropLast)
            (if (agGet (agSet g artist l.dropLast) artist).isEmpty then none
             else some (count + 1, artist)) (acc ++ [node]) = Except.ok out
          rw [hg', hgee, if_neg hdrop]
          exact hrun

/-- The interleaving loop's invariant holds at entry, given the feasibility
bound the source checks just before building the heap. -/
theorem interleave_initial_inv (artistOf : α → String) (xs : List α)
    (hfeas : 2 * maxFreq (groupByArtist artistOf xs) ≤ xs.length + 1) :
    InterleaveInv artistOf
      ((groupByArtist artistOf xs).map (fun p => (-(p.2.length : Int), p.1)))
      (groupByArtist artistOf xs) none [] := by
  have hnd := groupBy_keys_nodup artistOf xs
  have hagTotal : agTotal (groupByArtist artistOf xs) = xs.length := by
    rw [← agTotal_eq_join_length]
    exact (join_groupBy_perm artistOf xs).length_eq
  have hsnds : ((groupByArtist artistOf xs).map
      (fun p => (-(p.2.length : Int), p.1))).map Prod.snd
      = (groupByArtist artistOf xs).map Prod.fst := by
    rw [List.map_map]
    rfl
  refine ⟨hnd, ?_, ?_, fun e he pr hpr => Option.noConfusion hpr,
    fun pr hpr => Option.noConfusion hpr, ?_, groupBy_artistOf artistOf xs,
    ?_, fun pr hpr => Option.noConfusion hpr, ?_, List.chain'_nil⟩
  · rw [hsnds]
    exact hnd
  · intro e he
    obtain ⟨p, hp, hpe⟩ := List.mem_map.mp he
    have hag : agGet (groupByArtist artistOf xs) p.1 = p.2 :=
      agGet_of_mem hnd hp
    refine ⟨?_, ?_⟩
    · rw [← hpe]
      show -((p.2.length : Int))
        = -(((agGet (groupByArtist artistOf xs) p.1).length : Int))
      rw [hag]
    · rw [← hpe]
      show agGet (groupByArtist artistOf xs) p.1 ≠ []
      rw [hag]
      exact groupBy_snd_ne_nil artistOf xs p hp
  · intro a hheap hprev
    refine agGet_eq_nil_of_not_mem ?_
    intro hmem
    obtain ⟨p, hp, hpa⟩ := List.mem_map.mp hmem
    exact hheap (-(p.2.length : Int), p.1)
      (List.mem_map_of_mem (fun p => (-(p.2.length : Int), p.1)) hp) hpa
  · intro e he
    obtain ⟨p, hp, hpe⟩ := List.mem_map.mp he
    rw [← hpe]
    show 2 * (agGet (groupByArtist artistOf xs) p.1).length
      ≤ agTotal (groupByArtist artistOf xs) + 1
    rw [agGet_of_mem hnd hp, hagTotal]
    have h1 := length_le_maxFreq hp
    omega
  · intro e he x hx
    exact Option.noConfusion hx

theorem shuffle_core_ok (artistOf : α → String) (xs : List α)
    (hfeas2 : 2 * maxFreq (groupByArtist artistOf xs) ≤ xs.length + 1) :
    ∃ out, interleave artistOf xs.length
      ((groupByArtist artistOf xs).map (fun p => (-(p.2.length : Int), p.1)))
      (groupByArtist artistOf xs) none [] = Except.ok out
      ∧ out.Perm xs
      ∧ List.Chain' (fun x y => artistOf x ≠ artistOf y) out := by
  have hagTotal : agTotal (groupByArtist artistOf xs) = xs.length := by
    have h1 := agTotal_eq_join_length (groupByArtist artistOf xs)
    have h2 := (join_groupBy_perm artistOf xs).length_eq
    omega
  obtain ⟨out, hrun, hperm, hch⟩ := interleave_ok artistOf xs.length
    ((groupByArtist artistOf xs).map (fun p => (-(p.2.length : Int), p.1)))
    (groupByArtist artistOf xs) none []
    (interleave_initial_inv artistOf xs hfeas2) (le_of_eq hagTotal)
  refine ⟨out, hrun, ?_, hch⟩
  have hperm2 : out.Perm ((groupByArtist artistOf xs).map Prod.snd).join := by
    simpa using hperm
  exact hperm2.trans (join_groupBy_perm artistOf xs)

/-- `DLL.shuffle` unfolded: the trivial-size early return, the feasibility
check, and the interleaving call. -/
theorem shuffle_unfold (m : SongMap) (nodes : List DoublyLinkedListNode) :
    DLL.shuffle m nodes =
      if nodes.length ≤ 1 then Except.ok nodes
      else if maxFreq (groupByArtist
          (fun node => primary_artist m node.song) nodes)
          > (nodes.length - maxFreq (groupByArtist
              (fun node => primary_artist m node.song) nodes)) + 1 then
        Except.error
          "Cannot shuffle playlist: too many songs by a single artist to avoid consecutive playback."
      else
        interleave (fun node => primary_artist m node.song) nodes.length
          ((groupByArtist (fun node => primary_artist m node.song)
              nodes).map (fun p => (-(p.2.length : Int), p.1)))
          (groupByArtist (fun node => primary_artist m node.song) nodes)
          none [] := rfl

/-- Claim C3: for every outcome `nodes` of `random.shuffle`'s permutation of
the sequence, write `c` for the number of occurrences of the most frequent
primary artist — the first two conjuncts identify the code's `max_freq`
(`maxFreq (groupByArtist ...)`) as exactly that count (it bounds every
artist's count, and is attained when the sequence is non-empty).  If
`c <= (size - c) + 1` then `shuffle` always succeeds, returns the same
multiset of nodes, and no two adjacent nodes share a primary artist; if
`c > (size - c) + 1` it always fails with the capacity-exceeded
`ValueError`, raised before any rewiring, so the chain is left unchanged
(in this model no new node order is produced at all on the error path).
`hpresent` restricts the statement to sequences whose song ids all
resolve in the catalog: the source dereferences the catalog entry for
every node while grouping by primary artist (before the feasibility
check), raising `AttributeError` on a missing id, and `song_at`
totalizes that dereference. -/
theorem claim_C3 (m : SongMap) (nodes : List DoublyLinkedListNode)
    (hpresent : ∀ node ∈ nodes, (m.search_song node.song).isSome = true) :
    (∀ a : String,
      (nodes.filter (fun node => primary_artist m node.song == a)).length
        ≤ maxFreq (groupByArtist (fun node => primary_artist m node.song)
            nodes))
    ∧ (nodes ≠ [] → ∃ a : String,
      (nodes.filter (fun node => primary_artist m node.song == a)).length
        = maxFreq (groupByArtist (fun node => primary_artist m node.song)
            nodes))
    ∧ (maxFreq (groupByArtist (fun node => primary_artist m node.song) nodes)
        ≤ (nodes.length - maxFreq (groupByArtist
            (fun node => primary_artist m node.song) nodes)) + 1 →
      ∃ out, DLL.shuffle m nodes = Except.ok out
        ∧ out.Perm nodes
        ∧ List.Chain' (fun x y =>
            primary_artist m x.song ≠ primary_artist m y.song) out)
    ∧ (maxFreq (groupByArtist (fun node => primary_artist m node.song) nodes)
        > (nodes.length - maxFreq (groupByArtist
            (fun node => primary_artist m node.song) nodes)) + 1 →
      DLL.shuffle m nodes = Except.error
        "Cannot shuffle playlist: too many songs by a single artist to avoid consecutive playback.") := by
  have hagTotal : agTotal (groupByArtist
      (fun node => primary_artist m node.song) nodes) = nodes.length := by
    have h1 := agTotal_eq_join_length (groupByArtist
      (fun node => primary_artist m node.song) nodes)
    have h2 := (join_groupBy_perm (fun node => primary_artist m node.song)
      nodes).length_eq
    omega
  have hmle : maxFreq (groupByArtist
      (fun node => primary_artist m node.song) nodes) ≤ nodes.length := by
    have h3 := maxFreq_le_agTotal (groupByArtist
      (fun node => primary_artist m node.song) nodes)
    omega
  refine ⟨?_, ?_, ?_, ?_⟩
  · intro a
    rw [← agGet_groupBy (fun node => primary_artist m node.song) nodes a]
    by_cases h : agGet (groupByArtist
        (fun node => primary_artist m node.song) nodes) a = []
    · rw [h]
      exact Nat.zero_le _
    · obtain ⟨p, hp, hpk, hpv⟩ := exists_mem_of_agGet_ne_nil h
      rw [← hpv]
      exact length_le_maxFreq hp
  · intro hne
    rcases maxFreq_zero_or_attained (groupByArtist
        (fun node => primary_artist m node.song) nodes) with h0 | hatt
    · exfalso
      have hz : agTotal (groupByArtist
          (fun node => primary_artist m node.song) nodes) = 0 :=
        agTotal_eq_zero_of_all_nil (fun p hp => List.length_eq_zero.mp
          (Nat.le_zero.mp (h0 ▸ length_le_maxFreq hp)))
      rw [hagTotal] at hz
      exact hne (List.length_eq_zero.mp hz)
    · obtain ⟨p, hp, hplen⟩ := hatt
      refine ⟨p.1, ?_⟩
      rw [← agGet_groupBy (fun node => primary_artist m node.song) nodes p.1,
        agGet_of_mem (groupBy_keys_nodup _ nodes) hp]
      exact hplen
  · intro hfeas
    by_cases hlen : nodes.length ≤ 1
    · refine ⟨nodes, ?_, List.Perm.refl nodes, ?_⟩
      · rw [shuffle_unfold, if_pos hlen]
      · cases nodes with
        | nil => exact List.chain'_nil
        | cons x xs =>
          cases xs with
          | nil => exact List.chain'_singleton x
          | cons y ys => simp at hlen
    · have hfeas2 : 2 * maxFreq (groupByArtist
          (fun node => primary_artist m node.song) nodes)
          ≤ nodes.length + 1 := by omega
      have hnotgt : ¬(maxFreq (groupByArtist
          (fun node => primary_artist m node.song) nodes)
          > (nodes.length - maxFreq (groupByArtist
              (fun node => primary_artist m node.song) nodes)) + 1) :=
        not_lt.mpr hfeas
      obtain ⟨out, hrun, hperm, hch⟩ := shuffle_core_ok _ nodes hfeas2
      refine ⟨out, ?_, hperm, hch⟩
      rw [shuffle_unfold, if_neg hlen, if_neg hnotgt]
      exact hrun
  · intro hinfeas
    have hlen : ¬(nodes.length ≤ 1) := by omega
    rw [shuffle_unfold, if_neg hlen, if_pos hinfeas]

/-- Witness for C3: a three-song catalog where artist X holds two of the
three chain nodes (`c = 2`, `size = 3`, and `2 <= (3-2)+1` holds), run
through the success branch of `claim_C3` at that concrete input. -/
theorem claim_C3_witness :
    ∃ out, DLL.shuffle
        ⟨[(1, ⟨1, "A", ["X"], 180⟩), (2, ⟨2, "B", ["Y"], 240⟩),
          (3, ⟨3, "C", ["X"], 200⟩)]⟩
        [⟨1, 0⟩, ⟨2, 1⟩, ⟨3, 2⟩] = Except.ok out
      ∧ out.Perm [⟨1, 0⟩, ⟨2, 1⟩, ⟨3, 2⟩]
      ∧ List.Chain' (fun x y =>
          primary_artist ⟨[(1, ⟨1, "A", ["X"], 180⟩), (2, ⟨2, "B", ["Y"], 240⟩),
            (3, ⟨3, "C", ["X"], 200⟩)]⟩ x.song
          ≠ primary_artist ⟨[(1, ⟨1, "A", ["X"], 180⟩), (2, ⟨2, "B", ["Y"], 240⟩),
            (3, ⟨3, "C", ["X"], 200⟩)]⟩ y.song) out :=
  (claim_C3 ⟨[(1, ⟨1, "A", ["X"], 180⟩), (2, ⟨2, "B", ["Y"], 240⟩),
    (3, ⟨3, "C", ["X"], 200⟩)]⟩ [⟨1, 0⟩, ⟨2, 1⟩, ⟨3, 2⟩]
    (by decide)).2.2.1 (by decide)

/-! Pointer-store primitives. -/

theorem seg_nil (s : List NodeData) (pv nx : Option Nat) :
    linkedSegB s pv [] nx = true := rfl

end Playwise
